import Mathlib

/-
Verification development for the 4-player EFX allocation engine.

The Python source is embedded shallowly: valuations are modelled as exact
rationals, dictionaries as association lists, and the mutable phase state as
explicit state passing.  Definitions mirror the corresponding source
functions (src/player.py, src/allocation_model.py, src/allocation_checker.py,
src/allocation_manager.py, src/allocation_finder.py); theorems settle the
frozen specification claims about them.
-/

set_option maxHeartbeats 1000000

/-- Association-list lookup with a default, modelling Python dict.get with a
default value (dict keys are unique, so first-match lookup is faithful). -/
def alookupD {β : Type} (l : List (String × β)) (k : String) (d : β) : β :=
  match l with
  | [] => d
  | e :: t => if e.1 = k then e.2 else alookupD t k d

/-- Dictionary update used to model Python dict assignment: replace the
entry when the key is present, append otherwise. -/
def setEntry {β : Type} (l : List (String × β)) (k : String) (v : β) : List (String × β) :=
  if l.any (fun e => e.1 = k) then l.map (fun e => if e.1 = k then (k, v) else e)
  else l ++ [(k, v)]

/-- Stable insertion used to model the stable sorts of the source (Python
list.sort and sorted are stable): x is placed before the first element y
such that x must come strictly before y, hence after every earlier element
that ties with x. -/
def stableInsert {α : Type} (before : α → α → Prop) [DecidableRel before] (x : α) :
    List α → List α
  | [] => [x]
  | y :: ys => if before x y then x :: y :: ys else y :: stableInsert before x ys

/-- Stable sort by the given strict comes-before relation, processing
elements left to right; with the relation "key y < key x" this is exactly a
stable descending sort by key, with "x < y" a stable ascending sort. -/
def sortBy {α : Type} (before : α → α → Prop) [DecidableRel before] (l : List α) : List α :=
  l.foldl (fun acc x => stableInsert before x acc) []

/-- A player as in src/player.py: a display name and a valuation table
mapping good identifiers to values.  Phases of the algorithm always run
after normalization, so the table held here is the one get_valuation reads
at that point (the normalized table); normalize_valuations below models the
normalization step itself as a pure function on tables. -/
structure Player where
  name : String
  valuation : List (String × Rat)
  deriving DecidableEq, Inhabited

/-- Valuation lookup, Player.get_valuation.  The source indexes the table
directly (KeyError when absent); phases only ever look up goods present in
the table, and the embedding returns 0 for a missing key. -/
def Player.get_valuation (p : Player) (g : String) : Rat :=
  alookupD p.valuation g 0

/-- Value a player assigns to a list of goods: the sum the source computes
with sum(player.get_valuation(g) for g in goods). -/
def bundleValue (p : Player) (goods : List String) : Rat :=
  (goods.map p.get_valuation).sum

/-- An allocation as in src/allocation_model.py: a dictionary from player
names to lists of goods, and a dictionary from player names to cached
utility values. -/
structure Allocation where
  assignments : List (String × List String)
  utilities : List (String × Rat)
  deriving DecidableEq, Inhabited

/-- Allocation.get_assignment: dictionary get with default empty list. -/
def Allocation.get_assignment (a : Allocation) (player_name : String) : List String :=
  alookupD a.assignments player_name []

/-- Allocation.get_utility: dictionary get with default 0. -/
def Allocation.get_utility (a : Allocation) (player_name : String) : Rat :=
  alookupD a.utilities player_name 0

/-- Allocation.set_assignment. -/
def Allocation.set_assignment (a : Allocation) (player_name : String) (goods : List String) :
    Allocation :=
  { a with assignments := setEntry a.assignments player_name goods }

/-- Allocation.set_utility. -/
def Allocation.set_utility (a : Allocation) (player_name : String) (u : Rat) : Allocation :=
  { a with utilities := setEntry a.utilities player_name u }

/-- AllocationManager.calculate_utilities: for each player store the sum of
its valuations over its assigned goods. -/
def calculate_utilities (ps : List Player) (a : Allocation) : Allocation :=
  ps.foldl (fun acc p => acc.set_utility p.name (bundleValue p (acc.get_assignment p.name))) a

/-- One ordered pair of AllocationChecker.check_EFX: true when player i
still envies player j after removal of every single good of bundle j, that
is when for every good in bundle j the value i assigns to the reduced
bundle strictly exceeds the cached utility of i. -/
def efxViolationPair (pi' pj : Player) (a : Allocation) : Bool :=
  let ui := a.get_utility pi'.name
  let gj := a.get_assignment pj.name
  if gj.isEmpty then false
  else gj.all (fun g => decide (ui < bundleValue pi' (gj.filter (fun x => x ≠ g))))

/-- Index pairing used to model Python enumerate. -/
def withIdx {α : Type} : Nat → List α → List (Nat × α)
  | _, [] => []
  | i, x :: xs => (i, x) :: withIdx (i + 1) xs

/-- AllocationChecker.check_EFX: scan all index-distinct ordered pairs and
report false exactly when some pair exhibits the violation above. -/
def check_EFX (ps : List Player) (a : Allocation) : Bool :=
  (withIdx 0 ps).all (fun ip =>
    (withIdx 0 ps).all (fun jp =>
      ip.1 = jp.1 || !(efxViolationPair ip.2 jp.2 a)))

/-- Mathematical reading of an EFX violation by the ordered pair (i, j):
bundle j is nonempty and for every good g of bundle j, the value i assigns
to bundle j with g filtered out strictly exceeds the value i assigns to the
own bundle of i. -/
def EFXViolation (pi' pj : Player) (a : Allocation) : Prop :=
  a.get_assignment pj.name ≠ [] ∧
  ∀ g ∈ a.get_assignment pj.name,
    bundleValue pi' (a.get_assignment pi'.name) <
      bundleValue pi' ((a.get_assignment pj.name).filter (fun x => x ≠ g))

theorem withIdx_nil {α : Type} (n : Nat) : withIdx n ([] : List α) = [] := rfl

theorem withIdx_cons {α : Type} (n : Nat) (x : α) (xs : List α) :
    withIdx n (x :: xs) = (n, x) :: withIdx (n + 1) xs := rfl

theorem mem_withIdx {α : Type} [Inhabited α] (l : List α) (n : Nat) (q : Nat × α) :
    q ∈ withIdx n l ↔ ∃ j, j < l.length ∧ q = (n + j, l.getD j default) := by
  induction l generalizing n with
  | nil => simp [withIdx_nil]
  | cons x xs ih =>
    simp only [withIdx_cons, List.mem_cons, ih, List.length_cons]
    constructor
    · rintro (rfl | ⟨j, hj, rfl⟩)
      · exact ⟨0, by omega, by simp⟩
      · refine ⟨j + 1, by omega, ?_⟩
        rw [List.getD_cons_succ]
        have : n + (j + 1) = n + 1 + j := by omega
        rw [this]
    · rintro ⟨j, hj, rfl⟩
      cases j with
      | zero => left; simp
      | succ j' =>
        right
        refine ⟨j', by omega, ?_⟩
        rw [List.getD_cons_succ]
        have : n + (j' + 1) = n + 1 + j' := by omega
        rw [this]

theorem efxViolationPair_true_iff (pi' pj : Player) (a : Allocation) :
    efxViolationPair pi' pj a = true ↔
      (a.get_assignment pj.name ≠ [] ∧ ∀ g ∈ a.get_assignment pj.name,
        a.get_utility pi'.name <
          bundleValue pi' ((a.get_assignment pj.name).filter (fun x => x ≠ g))) := by
  by_cases h : (a.get_assignment pj.name).isEmpty
  · simp only [efxViolationPair, h, if_true]
    simp [List.isEmpty_iff.mp h]
  · simp only [efxViolationPair, h, if_false, List.all_eq_true, decide_eq_true_eq]
    have hne : a.get_assignment pj.name ≠ [] := by
      intro hc; rw [hc] at h; simp at h
    simp [hne]

theorem check_EFX_false_iff (ps : List Player) (a : Allocation)
    (hw : ∀ p ∈ ps, a.get_utility p.name = bundleValue p (a.get_assignment p.name)) :
    check_EFX ps a = false ↔
      ∃ i j, i < ps.length ∧ j < ps.length ∧ i ≠ j ∧
        EFXViolation (ps.getD i default) (ps.getD j default) a := by
  have hb : check_EFX ps a = false ↔ ¬ check_EFX ps a = true := by
    cases h : check_EFX ps a <;> simp
  rw [hb]
  simp only [check_EFX, List.all_eq_true, Bool.or_eq_true, Bool.not_eq_eq_eq_not,
    Bool.not_true, decide_eq_true_eq, not_forall]
  constructor
  · rintro ⟨ip, hip, jp, hjp, hnot⟩
    rw [mem_withIdx] at hip hjp
    obtain ⟨i, hi, rfl⟩ := hip
    obtain ⟨j, hj, rfl⟩ := hjp
    simp only [Nat.zero_add] at hnot ⊢
    push_neg at hnot
    obtain ⟨hne, hviol⟩ := hnot
    refine ⟨i, j, hi, hj, hne, ?_⟩
    have := (efxViolationPair_true_iff _ _ a).mp (by
      cases hvp : efxViolationPair (ps.getD i default) (ps.getD j default) a
      · exact absurd hvp hviol
      · rfl)
    refine ⟨this.1, fun g hg => ?_⟩
    have hu := hw (ps.getD i default) (by
      have : i < ps.length := hi
      rw [List.getD_eq_getElem _ _ this]
      exact List.getElem_mem this)
    rw [← hu]
    exact this.2 g hg
  · rintro ⟨i, j, hi, hj, hne, hviol⟩
    refine ⟨(i, ps.getD i default), ?_, (j, ps.getD j default), ?_, ?_⟩
    · rw [mem_withIdx]; exact ⟨i, hi, by simp⟩
    · rw [mem_withIdx]; exact ⟨j, hj, by simp⟩
    · push_neg
      refine ⟨hne, ?_⟩
      intro hfalse
      simp only at hfalse
      have hu := hw (ps.getD i default) (by
        rw [List.getD_eq_getElem _ _ hi]
        exact List.getElem_mem hi)
      have htrue : efxViolationPair (ps.getD i default) (ps.getD j default) a = true := by
        rw [efxViolationPair_true_iff]
        refine ⟨hviol.1, fun g hg => ?_⟩
        rw [hu]
        exact hviol.2 g hg
      rw [htrue] at hfalse
      simp at hfalse

/-- Players of the concrete scenario of spec section 8, with the stated
valuations normalized to sum 1 (each raw table sums to 11). -/
def efxPlayers : List Player :=
  [⟨"P1", [("A", 5/11), ("B", 3/11), ("C", 1/11), ("D", 2/11)]⟩,
   ⟨"P2", [("A", 2/11), ("B", 5/11), ("C", 3/11), ("D", 1/11)]⟩,
   ⟨"P3", [("A", 1/11), ("B", 2/11), ("C", 5/11), ("D", 3/11)]⟩,
   ⟨"P4", [("A", 3/11), ("B", 1/11), ("C", 2/11), ("D", 5/11)]⟩]

/-- Scenario assignment giving every player its single favourite good,
with utilities cached by the manager. -/
def allocOneEach : Allocation :=
  calculate_utilities efxPlayers
    ⟨[("P1", ["A"]), ("P2", ["B"]), ("P3", ["C"]), ("P4", ["D"])], []⟩

/-- Scenario assignment P1 gets A and D, P4 gets nothing, with utilities
cached by the manager. -/
def allocP1AD : Allocation :=
  calculate_utilities efxPlayers
    ⟨[("P1", ["A", "D"]), ("P2", ["B"]), ("P3", ["C"]), ("P4", [])], []⟩

/-- Claim C1: check_EFX returns false if and only if some ordered pair of
index-distinct players (i, j) with nonempty bundle j has, for every good g
of bundle j, the value i assigns to bundle j minus g strictly above the
value of the own bundle of i (so an empty bundle j never causes a
violation); and on the section 8 scenario the one-good-each assignment
checks true while the assignment P1 gets A and D, P4 gets nothing checks
false. -/
theorem claim_C1 :
    (∀ (ps : List Player) (a : Allocation),
        (∀ p ∈ ps, a.get_utility p.name = bundleValue p (a.get_assignment p.name)) →
        (check_EFX ps a = false ↔
          ∃ i j, i < ps.length ∧ j < ps.length ∧ i ≠ j ∧
            EFXViolation (ps.getD i default) (ps.getD j default) a))
    ∧ check_EFX efxPlayers allocOneEach = true
    ∧ check_EFX efxPlayers allocP1AD = false := by
  refine ⟨check_EFX_false_iff, ?_, ?_⟩
  · norm_num +decide [check_EFX, efxViolationPair, efxPlayers, allocOneEach, calculate_utilities,
      Allocation.set_utility, Allocation.get_utility, Allocation.get_assignment, setEntry,
      bundleValue, Player.get_valuation, alookupD, withIdx]
  · norm_num +decide [check_EFX, efxViolationPair, efxPlayers, allocP1AD, calculate_utilities,
      Allocation.set_utility, Allocation.get_utility, Allocation.get_assignment, setEntry,
      bundleValue, Player.get_valuation, alookupD, withIdx]

/-- Witness for claim C1: the hypothesis of the universally quantified part
is satisfied by the concrete scenario allocation, and the equivalence then
produces a concrete violating pair of player indices. -/
theorem claim_C1_witness :
    ∃ i j, i < efxPlayers.length ∧ j < efxPlayers.length ∧ i ≠ j ∧
      EFXViolation (efxPlayers.getD i default) (efxPlayers.getD j default) allocP1AD :=
  (claim_C1.1 efxPlayers allocP1AD (by
    intro p hp
    fin_cases hp <;>
      norm_num +decide [allocP1AD, efxPlayers, calculate_utilities, Allocation.set_utility,
        Allocation.get_utility, Allocation.get_assignment, setEntry, bundleValue,
        Player.get_valuation, alookupD])).mp claim_C1.2.2

theorem alookupD_eq_default {β : Type} (l : List (String × β)) (k : String) (d : β)
    (h : ∀ e ∈ l, e.1 ≠ k) : alookupD l k d = d := by
  induction l with
  | nil => rfl
  | cons e t ih =>
    rw [alookupD, if_neg (h e (List.mem_cons_self e t))]
    exact ih (fun x hx => h x (List.mem_cons_of_mem e hx))

/-- Claim C10: get_assignment of a name with no recorded entry is the empty
list and get_utility of a name with no recorded entry is 0, so unknown or
not-yet-assigned players behave as empty bundles with zero utility. -/
theorem claim_C10 (a : Allocation) (player_name : String)
    (h1 : ∀ e ∈ a.assignments, e.1 ≠ player_name)
    (h2 : ∀ e ∈ a.utilities, e.1 ≠ player_name) :
    a.get_assignment player_name = [] ∧ a.get_utility player_name = 0 :=
  ⟨alookupD_eq_default _ _ _ h1, alookupD_eq_default _ _ _ h2⟩

/-- Witness for claim C10 at a concrete allocation that records only P1. -/
theorem claim_C10_witness :
    (Allocation.mk [("P1", ["A"])] [("P1", 1)]).get_assignment "P9" = [] ∧
    (Allocation.mk [("P1", ["A"])] [("P1", 1)]).get_utility "P9" = 0 :=
  claim_C10 _ "P9" (by simp) (by simp)

/-- AllocationChecker construction (src/allocation_checker.py): reject
unless exactly 4 players, otherwise store the player list. -/
def AllocationChecker_init (players : List Player) : Except String (List Player) :=
  if players.length ≠ 4 then
    Except.error "This code is designed to work with exactly 4 players"
  else Except.ok players

/-- AllocationManager construction (src/allocation_manager.py): reject
unless exactly 4 players, otherwise store players and goods. -/
def AllocationManager_init (players : List Player) (goods : List String) :
    Except String (List Player × List String) :=
  if players.length ≠ 4 then
    Except.error "This code is designed to work with exactly 4 players"
  else Except.ok (players, goods)

/-- AllocationFinder construction (src/allocation_finder.py): reject unless
the manager holds exactly 4 players, otherwise store manager and checker. -/
def AllocationFinder_init (manager : List Player × List String) (checker : List Player) :
    Except String ((List Player × List String) × List Player) :=
  if manager.1.length ≠ 4 then
    Except.error "This code is designed to work with exactly 4 players"
  else Except.ok (manager, checker)

/-- Four players of which P1 has no valuation entry for good B although B
is in the goods list handed to the constructors. -/
def lacksBPlayers : List Player :=
  [⟨"P1", [("A", 1)]⟩, ⟨"P2", [("A", 1), ("B", 1)]⟩,
   ⟨"P3", [("A", 1), ("B", 1)]⟩, ⟨"P4", [("A", 1), ("B", 1)]⟩]

/-- Counterexample to claim C8: with four players of which the first lacks
a valuation entry for good B although B is in the goods list, all three
constructors still succeed, so a missing valuation does not cause a
construction-time validation error. -/
theorem claim_C8_counterexample :
    "B" ∈ ["A", "B"] ∧
    lacksBPlayers.getD 0 default = ⟨"P1", [("A", 1)]⟩ ∧
    (∀ e ∈ [("A", (1 : Rat))], e.1 ≠ "B") ∧
    AllocationManager_init lacksBPlayers ["A", "B"] = Except.ok (lacksBPlayers, ["A", "B"]) ∧
    AllocationChecker_init lacksBPlayers = Except.ok lacksBPlayers ∧
    AllocationFinder_init (lacksBPlayers, ["A", "B"]) lacksBPlayers =
      Except.ok ((lacksBPlayers, ["A", "B"]), lacksBPlayers) := by
  refine ⟨by simp, rfl, by simp, ?_, ?_, ?_⟩
  · rw [AllocationManager_init, if_neg (by simp [lacksBPlayers])]
  · rw [AllocationChecker_init, if_neg (by simp [lacksBPlayers])]
  · rw [AllocationFinder_init, if_neg (by simp [lacksBPlayers])]

/-- Claim C8 as amended: each of the three core constructors fails fast
with a validation error exactly when the supplied player count is not four
(producing no state), and otherwise succeeds with exactly the supplied
arguments; missing valuation entries are not checked at construction. -/
theorem claim_C8_amended :
    (∀ ps : List Player, ps.length ≠ 4 →
      AllocationChecker_init ps =
        Except.error "This code is designed to work with exactly 4 players") ∧
    (∀ ps : List Player, ps.length = 4 → AllocationChecker_init ps = Except.ok ps) ∧
    (∀ (ps : List Player) (gs : List String), ps.length ≠ 4 →
      AllocationManager_init ps gs =
        Except.error "This code is designed to work with exactly 4 players") ∧
    (∀ (ps : List Player) (gs : List String), ps.length = 4 →
      AllocationManager_init ps gs = Except.ok (ps, gs)) ∧
    (∀ (m : List Player × List String) (c : List Player), m.1.length ≠ 4 →
      AllocationFinder_init m c =
        Except.error "This code is designed to work with exactly 4 players") ∧
    (∀ (m : List Player × List String) (c : List Player), m.1.length = 4 →
      AllocationFinder_init m c = Except.ok (m, c)) := by
  refine ⟨?_, ?_, ?_, ?_, ?_, ?_⟩
  · intro ps h; rw [AllocationChecker_init, if_pos h]
  · intro ps h; rw [AllocationChecker_init, if_neg (by omega)]
  · intro ps gs h; rw [AllocationManager_init, if_pos h]
  · intro ps gs h; rw [AllocationManager_init, if_neg (by omega)]
  · intro m c h; rw [AllocationFinder_init, if_pos h]
  · intro m c h; rw [AllocationFinder_init, if_neg (by omega)]

/-- Witness for the amended claim C8 at concrete inputs: three players are
rejected, four players are accepted. -/
theorem claim_C8_amended_witness :
    AllocationChecker_init [⟨"P1", []⟩, ⟨"P2", []⟩, ⟨"P3", []⟩] =
      Except.error "This code is designed to work with exactly 4 players" ∧
    AllocationManager_init lacksBPlayers ["A", "B"] = Except.ok (lacksBPlayers, ["A", "B"]) :=
  ⟨claim_C8_amended.1 _ (by simp), claim_C8_amended.2.2.2.1 _ ["A", "B"] (by simp [lacksBPlayers])⟩

/-- Entry (i, j) of the envy matrix of _calculate_envy_matrix: 0 on the
diagonal, otherwise the positive part of the difference between the value i
assigns to the bundle of j and the value i assigns to the own bundle,
both recomputed from the assignment. -/
def envyPair (pi' pj : Player) (a : Allocation) : Rat :=
  if pi'.name = pj.name then 0
  else max 0 (bundleValue pi' (a.get_assignment pj.name) -
    bundleValue pi' (a.get_assignment pi'.name))

/-- Scan of _calculate_efx_envy_matrix locating the item of the list the
player values least: the first item is taken, later items replace it only
on a strictly smaller value. -/
def leastValuedItem (p : Player) (l : List String) : Option String :=
  l.foldl (fun acc g =>
    match acc with
    | none => some g
    | some cur => if p.get_valuation g < p.get_valuation cur then some g else acc) none

/-- Entry (i, j) of the EFX-envy matrix of _calculate_efx_envy_matrix: 0 on
the diagonal and for an empty bundle of j, otherwise the positive part of
the difference after filtering out of the bundle of j the item i values
least. -/
def efxPair (pi' pj : Player) (a : Allocation) : Rat :=
  if pi'.name = pj.name then 0
  else
    let bj := a.get_assignment pj.name
    if bj = [] then 0
    else
      match leastValuedItem pi' bj with
      | none => 0
      | some least =>
        max 0 (bundleValue pi' (bj.filter (fun x => x ≠ least)) -
          bundleValue pi' (a.get_assignment pi'.name))

theorem bundleValue_nonneg (p : Player) (l : List String)
    (h : ∀ g, 0 ≤ p.get_valuation g) : 0 ≤ bundleValue p l := by
  refine List.sum_nonneg ?_
  intro x hx
  obtain ⟨g, _, rfl⟩ := List.mem_map.mp hx
  exact h g

theorem bundleValue_filter_le (p : Player) (l : List String) (q : String → Bool)
    (h : ∀ g, 0 ≤ p.get_valuation g) :
    bundleValue p (l.filter q) ≤ bundleValue p l := by
  induction l with
  | nil => simp [bundleValue]
  | cons x xs ih =>
    by_cases hq : q x
    · simp only [bundleValue, List.filter_cons, hq, if_true, List.map_cons, List.sum_cons]
      exact add_le_add_left ih _
    · simp only [bundleValue, List.filter_cons, hq, Bool.false_eq_true, if_false,
        List.map_cons, List.sum_cons]
      calc bundleValue p (List.filter q xs) ≤ bundleValue p xs := ih
        _ ≤ p.get_valuation x + bundleValue p xs := le_add_of_nonneg_left (h x)

/-- Claim C4 as amended: on every allocation and every ordered pair of
players with nonnegative valuations, both matrix diagonals are 0, the
EFX-envy entry never exceeds the envy entry, and the two entries agree
whenever the bundle of the envied player is empty. -/
theorem claim_C4_amended (pi' pj : Player) (a : Allocation)
    (h : ∀ g, 0 ≤ pi'.get_valuation g) :
    envyPair pi' pi' a = 0 ∧ efxPair pi' pi' a = 0 ∧
    efxPair pi' pj a ≤ envyPair pi' pj a ∧
    (a.get_assignment pj.name = [] → efxPair pi' pj a = envyPair pi' pj a) := by
  have hdiag1 : envyPair pi' pi' a = 0 := by rw [envyPair, if_pos rfl]
  have hdiag2 : efxPair pi' pi' a = 0 := by rw [efxPair, if_pos rfl]
  refine ⟨hdiag1, hdiag2, ?_, ?_⟩
  · by_cases hname : pi'.name = pj.name
    · rw [envyPair, if_pos hname, efxPair, if_pos hname]
    · rw [envyPair, if_neg hname, efxPair, if_neg hname]
      simp only
      by_cases hbj : a.get_assignment pj.name = []
      · rw [if_pos hbj]
        positivity
      · rw [if_neg hbj]
        cases hleast : leastValuedItem pi' (a.get_assignment pj.name) with
        | none => positivity
        | some least =>
          simp only
          refine max_le_max le_rfl ?_
          refine sub_le_sub_right ?_ _
          exact bundleValue_filter_le pi' _ _ h
  · intro hbj
    by_cases hname : pi'.name = pj.name
    · rw [efxPair, if_pos hname, envyPair, if_pos hname]
    · simp only [efxPair, envyPair, if_neg hname, hbj, if_true, bundleValue, List.map_nil,
        List.sum_nil, zero_sub]
      rw [eq_comm, max_eq_left]
      simp only [neg_nonpos]
      exact bundleValue_nonneg pi' _ h

/-- Envier of the C4 counterexample: values good B at 1. -/
def cexEnvier : Player := ⟨"P1", [("B", 1)]⟩

/-- Envied player of the C4 counterexample. -/
def cexEnvied : Player := ⟨"P2", [("B", 1)]⟩

/-- Allocation of the C4 counterexample: the envier holds nothing, the
envied player holds exactly the single good B. -/
def cexAlloc : Allocation := ⟨[("P1", []), ("P2", ["B"])], []⟩

/-- Counterexample to claim C4: with nonnegative valuations and a bundle of
exactly one good, the envy entry is 1 but the EFX-envy entry is 0, so the
claimed equality for bundles of at most one good fails. -/
theorem claim_C4_counterexample :
    (cexAlloc.get_assignment "P2").length ≤ 1 ∧
    (∀ g, 0 ≤ cexEnvier.get_valuation g) ∧
    efxPair cexEnvier cexEnvied cexAlloc = 0 ∧
    envyPair cexEnvier cexEnvied cexAlloc = 1 := by
  refine ⟨?_, ?_, ?_, ?_⟩
  · norm_num +decide [cexAlloc, Allocation.get_assignment, alookupD]
  · intro g
    rw [cexEnvier, Player.get_valuation, alookupD]
    split
    · norm_num
    · rw [alookupD]
  · norm_num +decide [efxPair, cexEnvier, cexEnvied, cexAlloc, Allocation.get_assignment,
      alookupD, leastValuedItem, bundleValue, Player.get_valuation]
  · norm_num +decide [envyPair, cexEnvier, cexEnvied, cexAlloc, Allocation.get_assignment,
      alookupD, bundleValue, Player.get_valuation]

/-- Witness for the amended claim C4 at the concrete counterexample
instance, discharging the nonnegativity hypothesis there. -/
theorem claim_C4_amended_witness :
    efxPair cexEnvier cexEnvied cexAlloc ≤ envyPair cexEnvier cexEnvied cexAlloc ∧
    envyPair cexEnvier cexEnvier cexAlloc = 0 := by
  have hnn : ∀ g, 0 ≤ cexEnvier.get_valuation g := by
    intro g
    rw [cexEnvier, Player.get_valuation, alookupD]
    split
    · norm_num
    · rw [alookupD]
  exact ⟨(claim_C4_amended cexEnvier cexEnvied cexAlloc hnn).2.2.1,
    (claim_C4_amended cexEnvier cexEnvier cexAlloc hnn).1⟩

/-- Player.normalize_valuations as a pure function on the raw table: scale
every value by target over the raw sum, or distribute target equally over
the goods when the raw sum is 0. -/
def normalize_valuations (valuation : List (String × Rat)) (target : Rat) :
    List (String × Rat) :=
  let current_sum := (valuation.map Prod.snd).sum
  if current_sum = 0 then
    valuation.map (fun e => (e.1, target / (valuation.length : Rat)))
  else
    valuation.map (fun e => (e.1, e.2 * (target / current_sum)))

/-- Sample variance with n minus 1 divisor and mean sum over n, the square
of what statistics.stdev computes; 0 when fewer than two values. -/
def sampleVariance (xs : List Rat) : Rat :=
  if 1 < xs.length then
    ((xs.map (fun x => (x - xs.sum / (xs.length : Rat)) ^ 2)).sum) / ((xs.length : Rat) - 1)
  else 0

/-- Standard deviation stored by normalize_valuations: the sample standard
deviation of the values when there are at least two of them, 0 otherwise
(the source guards with a length check before calling statistics.stdev). -/
noncomputable def std_deviation (xs : List Rat) : Real :=
  if 1 < xs.length then Real.sqrt (sampleVariance xs) else 0

/-- Claim C7: normalization never divides by zero in the sense that with a
positive raw sum the normalized values sum to exactly the target, with a
zero raw sum every good receives target divided by the number of goods,
and the stored dispersion is the sample standard deviation of the
normalized values, equal to 0 when there is only one good. -/
theorem claim_C7 (valuation : List (String × Rat)) (target : Rat) :
    (0 < (valuation.map Prod.snd).sum →
      ((normalize_valuations valuation target).map Prod.snd).sum = target) ∧
    ((valuation.map Prod.snd).sum = 0 →
      ∀ e ∈ normalize_valuations valuation target,
        e.2 = target / (valuation.length : Rat)) ∧
    (valuation.length = 1 →
      std_deviation ((normalize_valuations valuation target).map Prod.snd) = 0) ∧
    (1 < valuation.length →
      std_deviation ((normalize_valuations valuation target).map Prod.snd) =
        Real.sqrt (sampleVariance ((normalize_valuations valuation target).map Prod.snd))) := by
  have hlen : (normalize_valuations valuation target).length = valuation.length := by
    rw [normalize_valuations]
    split <;> simp
  refine ⟨?_, ?_, ?_, ?_⟩
  · intro hpos
    have hne : (valuation.map Prod.snd).sum ≠ 0 := ne_of_gt hpos
    rw [normalize_valuations]
    simp only [hne, if_false, if_neg hne]
    rw [List.map_map]
    have : (Prod.snd ∘ fun e : String × Rat =>
        (e.1, e.2 * (target / (valuation.map Prod.snd).sum))) =
        (fun e : String × Rat => e.2 * (target / (valuation.map Prod.snd).sum)) := rfl
    rw [this]
    have := List.sum_map_mul_right valuation (fun e : String × Rat => e.2)
      (target / (valuation.map Prod.snd).sum)
    rw [this]
    field_simp
  · intro hzero e he
    rw [normalize_valuations] at he
    simp only [hzero, if_pos rfl] at he
    obtain ⟨x, _, rfl⟩ := List.mem_map.mp he
    rfl
  · intro h1
    rw [std_deviation, if_neg]
    rw [List.length_map, hlen]
    omega
  · intro h2
    rw [std_deviation, if_pos]
    rw [List.length_map, hlen]
    exact h2

/-- Witness for claim C7: concrete tables discharging each hypothesis, a
positive-sum table of two goods, an all-zero table, and a one-good table. -/
theorem claim_C7_witness :
    ((normalize_valuations [("A", 2), ("B", 2)] 1).map Prod.snd).sum = 1 ∧
    (∀ e ∈ normalize_valuations [("A", 0), ("B", 0)] 1,
      e.2 = 1 / (([("A", (0 : Rat)), ("B", 0)] : List (String × Rat)).length : Rat)) ∧
    std_deviation ((normalize_valuations [("A", 5)] 1).map Prod.snd) = 0 ∧
    std_deviation ((normalize_valuations [("A", 2), ("B", 2)] 1).map Prod.snd) =
      Real.sqrt (sampleVariance ((normalize_valuations [("A", 2), ("B", 2)] 1).map Prod.snd)) :=
  ⟨(claim_C7 [("A", 2), ("B", 2)] 1).1 (by norm_num),
   (claim_C7 [("A", 0), ("B", 0)] 1).2.1 (by norm_num),
   (claim_C7 [("A", 5)] 1).2.2.1 (by norm_num),
   (claim_C7 [("A", 2), ("B", 2)] 1).2.2.2 (by norm_num)⟩

/-- Phase-internal allocation dictionary mapping player names to bundles,
as used by Phase 1 and Phase 2 of allocation_finder.py. -/
abbrev AMap := List (String × List String)

/-- Bundle of a player name in a phase-internal allocation dictionary. -/
def bundleOf (a : AMap) (n : String) : List String :=
  alookupD a n []

/-- View of a phase dictionary as an Allocation object for the derived
matrices (which recompute utilities from assignments and never read the
cache). -/
def asAlloc (m : AMap) : Allocation := ⟨m, []⟩

/-- Append a good to the bundle of the named player, modelling
allocation[name].append(good). -/
def updList (a : AMap) (k : String) (g : String) : AMap :=
  a.map (fun e => if e.1 = k then (e.1, e.2 ++ [g]) else e)

/-- First player of the list with the given name, modelling
next(p for p in self.players if p.name == name). -/
def playerByName (ps : List Player) (n : String) : Player :=
  (ps.find? (fun p => p.name = n)).getD default

/-- Total of the envy matrix of _calculate_envy_matrix over all ordered
pairs (diagonal entries are 0 and contribute nothing). -/
def totalEnvy (ps : List Player) (m : AMap) : Rat :=
  (ps.map (fun pi' => (ps.map (fun pj => envyPair pi' pj (asAlloc m))).sum)).sum

/-- Total of the EFX-envy matrix of _calculate_efx_envy_matrix over all
ordered pairs. -/
def totalEFXEnvy (ps : List Player) (m : AMap) : Rat :=
  (ps.map (fun pi' => (ps.map (fun pj => efxPair pi' pj (asAlloc m))).sum)).sum

/-- Champion scan of _build_champion_graph for one target bundle: fold over
candidate champions keeping the highest gain, breaking exact gain ties by
strictly lower current utility; the state holds the best champion with its
gain and current utility, none standing for the initial no-champion state
with gain -1 and infinite current utility. -/
def championScan (ps : List Player) (target : Player) (tb : List String) (a : AMap) :
    Option (Player × Rat × Rat) :=
  ps.foldl (fun st pc =>
    if pc.name = target.name then st
    else
      let cv := bundleValue pc (bundleOf a pc.name)
      let gain := bundleValue pc tb - cv
      match st with
      | none => if gain > -1 then some (pc, gain, cv) else none
      | some (_, bg, bcu) =>
          if gain > bg ∨ (gain = bg ∧ cv < bcu) then some (pc, gain, cv) else st) none

/-- _build_champion_graph: for every target player in order, an edge from
the target name to the champion name is recorded when the best gain is
strictly positive.  In the resulting association list the key is the
target whose bundle the champion covets, so the envy arrow of the champion
points at the key. -/
def buildChampionGraph (ps : List Player) (good : String) (a : AMap) :
    List (String × String) :=
  ps.foldl (fun g target =>
    match championScan ps target (bundleOf a target.name ++ [good]) a with
    | some (c, bg, _) => if bg > 0 then g ++ [(target.name, c.name)] else g
    | none => g) []

/-- Option-valued association lookup for the champion graph. -/
def alookup (l : List (String × String)) (k : String) : Option String :=
  match l with
  | [] => none
  | e :: t => if e.1 = k then some e.2 else alookup t k

/-- Depth-first search of _find_all_cycles: follow the single outgoing edge
of each node; a node already on the current path closes a cycle (the path
suffix from its first occurrence), a node visited earlier ends the search,
otherwise the node is marked visited and the walk continues.  The fuel
only bounds recursion depth; every recursive call marks a new node visited,
so a fuel exceeding the number of distinct node names never runs out. -/
def dfsChampion (g : List (String × String)) :
    Nat → String → List String → List String → Option (List String) × List String
  | 0, _, _, visited => (none, visited)
  | fuel + 1, node, path, visited =>
    if node ∈ path then (some (path.dropWhile (fun x => x ≠ node)), visited)
    else if node ∈ visited then (none, visited)
    else
      let visited' := visited ++ [node]
      match alookup g node with
      | some nxt =>
          let r := dfsChampion g fuel nxt (path ++ [node]) visited'
          (r.1, r.2)
      | none => (none, visited')

/-- _find_all_cycles: run the depth-first search from every graph key not
yet visited, collecting distinct cycles in discovery order. -/
def findAllCycles (g : List (String × String)) : List (List String) :=
  ((g.map Prod.fst).foldl (fun st start =>
    if start ∈ st.2 then st
    else
      let r := dfsChampion g (2 * g.length + 2) start [] st.2
      match r.1 with
      | some c => (if c ∈ st.1 then st.1 else st.1 ++ [c], r.2)
      | none => (st.1, r.2)) (([] : List (List String)), ([] : List String))).1

/-- _calculate_envy_reduction: total of the positive gains every cycle
member would get from receiving the next bundle around the cycle, the
first member also receiving the new good. -/
def calculateEnvyReduction (ps : List Player) (cycle : List String) (good : String)
    (a : AMap) : Rat :=
  ((withIdx 0 cycle).map (fun ic =>
    let player := playerByName ps ic.2
    let cur := bundleValue player (bundleOf a ic.2)
    let nextName := cycle.getD ((ic.1 + 1) % cycle.length) ""
    let nextB := bundleOf a nextName ++ (if ic.1 = 0 then [good] else [])
    max 0 (bundleValue player nextB - cur))).sum

/-- _choose_best_cycle: with several cycles keep the one with the highest
envy reduction, strict improvements only, ties keeping the earlier one. -/
def chooseBestCycle (ps : List Player) (cycles : List (List String)) (good : String)
    (a : AMap) : List String :=
  match cycles with
  | [] => []
  | c0 :: _ =>
    if cycles.length = 1 then c0
    else
      (cycles.foldl (fun st c =>
        let red := calculateEnvyReduction ps c good a
        if red > st.2 then (c, red) else st) (c0, 0)).1

/-- Rotation step of _process_cycle: every cycle member receives the
original bundle of the next member around the cycle. -/
def rotateBundles (cycle : List String) (a : AMap) : AMap :=
  a.map (fun e =>
    if e.1 ∈ cycle then
      (e.1, bundleOf a (cycle.getD ((cycle.indexOf e.1 + 1) % cycle.length) ""))
    else e)

/-- Direct-assignment scan of _process_cycle over the cycle members: state
is the best EFX-envy, best regular envy, best recipient (none at the
start, standing for infinite envies and no recipient) together with the
tied candidate list. -/
def directScan (ps : List Player) (cycle : List String) (good : String) (a : AMap)
    (tol : Rat) : Option (Rat × Rat × String) × List String :=
  cycle.foldl (fun st name =>
    let testA := updList a name good
    let tefx := totalEFXEnvy ps testA
    let tenvy := totalEnvy ps testA
    match st.1 with
    | none => (some (tefx, tenvy, name), [name])
    | some (bde, bre, brec) =>
      if tefx < bde - tol then (some (tefx, tenvy, name), [name])
      else if |tefx - bde| ≤ tol then
        if tenvy < bre - tol then (some (tefx, tenvy, name), [name])
        else if |tenvy - bre| ≤ tol then
          let bde' := if tefx < bde then tefx else bde
          let bre' := if tenvy < bre then tenvy else bre
          let tied' := if name ∈ st.2 then st.2 else st.2 ++ [name]
          let tied'' := if tied'.length = 1 ∧ brec ∉ tied' then brec :: tied' else tied'
          (some (bde', bre', name), tied'')
        else st
      else st) (none, [])

/-- Smallest string of a list, modelling Python min over player names. -/
def minString (l : List String) : String :=
  match l with
  | [] => ""
  | x :: xs => xs.foldl min x

/-- _process_cycle: evaluate direct assignment to every cycle member
(EFX-envy first, regular envy as tie-breaker, lexicographic name among
residual ties) and the rotation strategy, then apply whichever of the two
has the lexicographically smaller (EFX-envy, envy) pair, the direct
strategy on full ties. -/
def processCycle (ps : List Player) (cycle : List String) (good : String) (a : AMap)
    (tol : Rat) : AMap :=
  let scan := directScan ps cycle good a tol
  let direct := scan.1.getD (0, 0, "")
  let brec := if scan.2.length > 1 then minString scan.2 else direct.2.2
  let rotA := updList (rotateBundles cycle a) (cycle.getD 0 "") good
  let rotEfx := totalEFXEnvy ps rotA
  let rotEnvy := totalEnvy ps rotA
  if rotEfx < direct.1 ∨ (rotEfx = direct.1 ∧ rotEnvy < direct.2.1) then rotA
  else updList a brec good

/-- Current-utility key used by the source scan. -/
def utilKey (a : AMap) (p : Player) : Rat := bundleValue p (bundleOf a p.name)

/-- Source selection of _assign_to_source: the source with the lowest
current utility, by a first-strict-minimum scan (the source iterates a
Python set; the embedding fixes player-list order, and the theorems only
use order-independent consequences). -/
def minUtilitySource (sources : List Player) (a : AMap) : String :=
  match sources with
  | [] => ""
  | s :: rest => (rest.foldl (fun b x => if utilKey a x < utilKey a b then x else b) s).name

/-- Fallback of _assign_to_source: the first player whose valuation of the
good strictly exceeds all earlier ones, starting from the sentinel -1. -/
def highestValuationRecipient (ps : List Player) (good : String) : String :=
  (ps.foldl (fun st p =>
    if st.2 < p.get_valuation good then (p.name, p.get_valuation good) else st)
    ("", (-1 : Rat))).1

/-- _assign_to_source: sources are the players that are not keys of the
champion graph (not the target of any envy edge); with sources present the
good goes to the source of lowest current utility, otherwise to the player
valuing the good most. -/
def assignToSource (ps : List Player) (good : String) (a : AMap)
    (g : List (String × String)) : AMap :=
  let sources := ps.filter (fun p => p.name ∉ g.map Prod.fst)
  if sources.isEmpty then updList a (highestValuationRecipient ps good) good
  else updList a (minUtilitySource sources a) good

/-- _champion_graph_allocation: build the champion graph for the good, use
the best cycle when one exists, otherwise assign to a source. -/
def championGraphAllocation (ps : List Player) (good : String) (a : AMap) (tol : Rat) :
    AMap :=
  let g := buildChampionGraph ps good a
  let cycles := findAllCycles g
  if cycles.isEmpty then assignToSource ps good a g
  else processCycle ps (chooseBestCycle ps cycles good a) good a tol

theorem foldlMin_spec {α : Type} (key : α → Rat) (l : List α) (cur : α) :
    (l.foldl (fun b x => if key x < key b then x else b) cur = cur ∨
      l.foldl (fun b x => if key x < key b then x else b) cur ∈ l) ∧
    key (l.foldl (fun b x => if key x < key b then x else b) cur) ≤ key cur ∧
    ∀ x ∈ l, key (l.foldl (fun b x => if key x < key b then x else b) cur) ≤ key x := by
  induction l generalizing cur with
  | nil => exact ⟨Or.inl rfl, le_refl _, by simp⟩
  | cons y ys ih =>
    simp only [List.foldl_cons]
    by_cases hy : key y < key cur
    · rw [if_pos hy]
      obtain ⟨hmem, hle, hall⟩ := ih y
      refine ⟨?_, ?_, ?_⟩
      · rcases hmem with h | h
        · exact Or.inr (by rw [h]; exact List.mem_cons_self y ys)
        · exact Or.inr (List.mem_cons_of_mem y h)
      · exact le_trans hle (le_of_lt hy)
      · intro x hx
        rcases List.mem_cons.mp hx with rfl | hx'
        · exact hle
        · exact hall x hx'
    · rw [if_neg hy]
      obtain ⟨hmem, hle, hall⟩ := ih cur
      refine ⟨?_, hle, ?_⟩
      · rcases hmem with h | h
        · exact Or.inl h
        · exact Or.inr (List.mem_cons_of_mem y h)
      · intro x hx
        rcases List.mem_cons.mp hx with rfl | hx'
        · exact le_trans hle (not_lt.mp hy)
        · exact hall x hx'

theorem minUtilitySource_spec (sources : List Player) (a : AMap) (h : sources ≠ []) :
    ∃ r ∈ sources, minUtilitySource sources a = r.name ∧
      ∀ s ∈ sources, utilKey a r ≤ utilKey a s := by
  match sources with
  | [] => exact absurd rfl h
  | s :: rest =>
    obtain ⟨hmem, hle, hall⟩ := foldlMin_spec (utilKey a) rest s
    refine ⟨rest.foldl (fun b x => if utilKey a x < utilKey a b then x else b) s, ?_, rfl, ?_⟩
    · rcases hmem with heq | hm
      · rw [heq]; exact List.mem_cons_self s rest
      · exact List.mem_cons_of_mem s hm
    · intro q hq
      rcases List.mem_cons.mp hq with rfl | hq'
      · exact hle
      · exact hall q hq'

theorem foldlMaxSentinel_spec (key : Player → Rat) (l : List Player) (bn : String) (bv : Rat) :
    (l.foldl (fun st p => if st.2 < key p then (p.name, key p) else st) (bn, bv) = (bn, bv) ∨
      ∃ r ∈ l, l.foldl (fun st p => if st.2 < key p then (p.name, key p) else st) (bn, bv) =
        (r.name, key r)) ∧
    bv ≤ (l.foldl (fun st p => if st.2 < key p then (p.name, key p) else st) (bn, bv)).2 ∧
    ∀ p ∈ l, key p ≤
      (l.foldl (fun st p => if st.2 < key p then (p.name, key p) else st) (bn, bv)).2 := by
  induction l generalizing bn bv with
  | nil => exact ⟨Or.inl rfl, le_refl _, by simp⟩
  | cons y ys ih =>
    simp only [List.foldl_cons]
    by_cases hy : bv < key y
    · rw [if_pos hy]
      obtain ⟨hmem, hle, hall⟩ := ih y.name (key y)
      refine ⟨?_, le_trans (le_of_lt hy) hle, ?_⟩
      · rcases hmem with h | ⟨r, hr, h⟩
        · exact Or.inr ⟨y, List.mem_cons_self y ys, h⟩
        · exact Or.inr ⟨r, List.mem_cons_of_mem y hr, h⟩
      · intro p hp
        rcases List.mem_cons.mp hp with rfl | hp'
        · exact hle
        · exact hall p hp'
    · rw [if_neg hy]
      obtain ⟨hmem, hle, hall⟩ := ih bn bv
      refine ⟨?_, hle, ?_⟩
      · rcases hmem with h | ⟨r, hr, h⟩
        · exact Or.inl h
        · exact Or.inr ⟨r, List.mem_cons_of_mem y hr, h⟩
      · intro p hp
        rcases List.mem_cons.mp hp with rfl | hp'
        · exact le_trans (not_lt.mp hy) hle
        · exact hall p hp'

theorem highestValuationRecipient_spec (ps : List Player) (good : String)
    (h : ∃ p ∈ ps, -1 < p.get_valuation good) :
    ∃ r ∈ ps, highestValuationRecipient ps good = r.name ∧
      ∀ p ∈ ps, p.get_valuation good ≤ r.get_valuation good := by
  obtain ⟨hmem, _, hall⟩ :=
    foldlMaxSentinel_spec (fun p => p.get_valuation good) ps "" (-1)
  rcases hmem with heq | ⟨r, hr, heq⟩
  · obtain ⟨p, hp, hv⟩ := h
    have := hall p hp
    rw [heq] at this
    exact absurd (lt_of_lt_of_le hv this) (lt_irrefl _)
  · refine ⟨r, hr, ?_, ?_⟩
    · rw [highestValuationRecipient, heq]
    · intro p hp
      have := hall p hp
      rw [heq] at this
      exact this

/-- Claim C5: when the champion graph built for a good has no cycle, the
good is appended to the bundle of a source agent (one that is not the key
of any edge, that is not the target of any envy arrow), the source with
lowest current utility; only when every agent is such a target does the
good go to an agent valuing it most. -/
theorem claim_C5 (ps : List Player) (good : String) (a : AMap) (tol : Rat)
    (hps : ps ≠ [])
    (hnn : ∀ p ∈ ps, -1 < p.get_valuation good)
    (hcyc : findAllCycles (buildChampionGraph ps good a) = []) :
    ∃ r ∈ ps,
      championGraphAllocation ps good a tol = updList a r.name good ∧
      ((ps.filter (fun p => p.name ∉ (buildChampionGraph ps good a).map Prod.fst)) ≠ [] →
        r.name ∉ (buildChampionGraph ps good a).map Prod.fst ∧
        ∀ s ∈ ps.filter (fun p => p.name ∉ (buildChampionGraph ps good a).map Prod.fst),
          utilKey a r ≤ utilKey a s) ∧
      ((ps.filter (fun p => p.name ∉ (buildChampionGraph ps good a).map Prod.fst)) = [] →
        ∀ p ∈ ps, p.get_valuation good ≤ r.get_valuation good) := by
  have hdisp : championGraphAllocation ps good a tol =
      assignToSource ps good a (buildChampionGraph ps good a) := by
    rw [championGraphAllocation]
    simp only [hcyc, List.isEmpty_nil, if_true]
  set g := buildChampionGraph ps good a with hg
  set sources := ps.filter (fun p => p.name ∉ g.map Prod.fst) with hs
  by_cases hsrc : sources = []
  · have hne : ∃ p ∈ ps, -1 < p.get_valuation good := by
      obtain ⟨p, hp⟩ := List.exists_mem_of_ne_nil ps hps
      exact ⟨p, hp, hnn p hp⟩
    obtain ⟨r, hr, hname, hmax⟩ := highestValuationRecipient_spec ps good hne
    refine ⟨r, hr, ?_, fun hcontra => absurd hsrc hcontra, fun _ => hmax⟩
    rw [hdisp, assignToSource]
    simp only [← hs, hsrc, List.isEmpty_nil, if_true, hname]
  · obtain ⟨r, hr, hname, hmin⟩ := minUtilitySource_spec sources a hsrc
    have hrps : r ∈ ps := List.mem_of_mem_filter hr
    have hrname : r.name ∉ g.map Prod.fst := by
      have := List.of_mem_filter hr
      simpa using this
    refine ⟨r, hrps, ?_, fun _ => ⟨hrname, hmin⟩, fun hcon => absurd hcon hsrc⟩
    rw [hdisp, assignToSource]
    simp only [← hs, hname]
    rw [if_neg]
    simp [List.isEmpty_iff, hsrc]

/-- Four players with empty valuation tables used by the C5 witness. -/
def plainPlayers : List Player :=
  [⟨"P1", []⟩, ⟨"P2", []⟩, ⟨"P3", []⟩, ⟨"P4", []⟩]

/-- Empty-bundle allocation dictionary for the C5 witness. -/
def emptyAMap : AMap := [("P1", []), ("P2", []), ("P3", []), ("P4", [])]

/-- Witness for claim C5: on a concrete instance whose champion graph is
empty (hence cycle-free), the claim applies and yields the source
assignment. -/
theorem claim_C5_witness :
    ∃ r ∈ plainPlayers,
      championGraphAllocation plainPlayers "G" emptyAMap (1/1000) =
        updList emptyAMap r.name "G" ∧
      ((plainPlayers.filter (fun p =>
          p.name ∉ (buildChampionGraph plainPlayers "G" emptyAMap).map Prod.fst)) ≠ [] →
        r.name ∉ (buildChampionGraph plainPlayers "G" emptyAMap).map Prod.fst ∧
        ∀ s ∈ plainPlayers.filter (fun p =>
            p.name ∉ (buildChampionGraph plainPlayers "G" emptyAMap).map Prod.fst),
          utilKey emptyAMap r ≤ utilKey emptyAMap s) ∧
      ((plainPlayers.filter (fun p =>
          p.name ∉ (buildChampionGraph plainPlayers "G" emptyAMap).map Prod.fst)) = [] →
        ∀ p ∈ plainPlayers, p.get_valuation "G" ≤ r.get_valuation "G") :=
  claim_C5 plainPlayers "G" emptyAMap (1/1000)
    (by simp [plainPlayers])
    (by
      intro p hp
      fin_cases hp <;> norm_num +decide [Player.get_valuation, alookupD])
    (by
      norm_num +decide [findAllCycles, buildChampionGraph, championScan, plainPlayers,
        emptyAMap, bundleOf, bundleValue, alookupD, Player.get_valuation])

/-- _get_top_options: pair every available good with its value, stable-sort
descending by value, keep the first top_n. -/
def getTopOptions (player : Player) (available_goods : List String) (top_n : Nat) :
    List (String × Rat) :=
  (sortBy (fun a b : String × Rat => b.2 < a.2)
    (available_goods.map (fun g => (g, player.get_valuation g)))).take top_n

/-- _calculate_future_benefit: each remaining player in order greedily takes
its strictly-best-valued good from what remains (goods of value 0 are never
taken, the scan starts from best value 0 and no good); the benefit is the
total of the taken values averaged over the remaining players. -/
def futureBenefit (remaining_players : List Player) (remaining_goods : List String) : Rat :=
  if remaining_players = [] ∨ remaining_goods = [] then 0
  else
    ((remaining_players.foldl (fun st player =>
      if st.2 = [] then st
      else
        let pick := st.2.foldl (fun bb g =>
          if bb.2 < player.get_valuation g then (some g, player.get_valuation g) else bb)
          ((none : Option String), (0 : Rat))
        match pick.1 with
        | some bg => (st.1 + pick.2, st.2.erase bg)
        | none => st) ((0 : Rat), remaining_goods)).1) / (remaining_players.length : Rat)

/-- Sacrifice ratio of an option against the best value, 0 when the best
value is not positive. -/
def sacrificeRatio (best_value v : Rat) : Rat :=
  if best_value > 0 then (best_value - v) / best_value else 0

/-- Consideration score of an option: future benefit of the goods left
after removing the option, minus the absolute sacrifice. -/
def considerScore (best_value : Rat) (remaining_players : List Player)
    (available_goods : List String) (o : String × Rat) : Rat :=
  futureBenefit remaining_players (available_goods.filter (fun g => g ≠ o.1)) -
    (best_value - o.2)

/-- Scan of _choose_with_consideration over the options: the state is the
current best choice, the running best score (0 at the start) and the tied
list; options beyond the sacrifice ceiling are skipped, an option beating
the running best by more than the tolerance becomes the sole candidate,
and an option within the tolerance of a strictly positive running best
joins the tied list unless already present. -/
def considerLoop (best_value : Rat) (remaining_players : List Player)
    (available_goods : List String) (max_sacrifice_threshold tol : Rat) :
    List (String × Rat) → (String × Rat) → Rat → List (String × Rat) →
      (String × Rat) × Rat × List (String × Rat)
  | [], best, bestScore, tied => (best, bestScore, tied)
  | opt :: rest, best, bestScore, tied =>
    if sacrificeRatio best_value opt.2 > max_sacrifice_threshold then
      considerLoop best_value remaining_players available_goods max_sacrifice_threshold tol
        rest best bestScore tied
    else
      let score := considerScore best_value remaining_players available_goods opt
      if score > bestScore + tol then
        considerLoop best_value remaining_players available_goods max_sacrifice_threshold tol
          rest opt score [opt]
      else if |score - bestScore| ≤ tol ∧ bestScore > 0 then
        considerLoop best_value remaining_players available_goods max_sacrifice_threshold tol
          rest best bestScore (if opt ∈ tied then tied else tied ++ [opt])
      else
        considerLoop best_value remaining_players available_goods max_sacrifice_threshold tol
          rest best bestScore tied

/-- Largest valuation of the player over a list of goods, modelling the
Python max over a nonempty generator. -/
def maxValOver (p : Player) (l : List String) : Rat :=
  match l with
  | [] => 0
  | x :: xs => xs.foldl (fun m g => max m (p.get_valuation g)) (p.get_valuation x)

/-- Opportunity cost of taking an option, for the immediately next player:
the value of the taken good minus the best alternative left, or minus the
value of the good when nothing would be left. -/
def opportunityCost (next_player : Player) (available_goods : List String)
    (opt : String × Rat) : Rat :=
  let remaining_after := available_goods.filter (fun g => g ≠ opt.1)
  if remaining_after = [] then -(next_player.get_valuation opt.1)
  else next_player.get_valuation opt.1 - maxValOver next_player remaining_after

/-- _break_tie_with_opportunity_cost: pick the tied option with the first
strict minimum opportunity cost for the next player (the source seeds its
scan with an infinite cost, so the first option always replaces the seed
and the scan is the first strict minimum over the list). -/
def breakTieWithOpportunityCost (tied_options : List (String × Rat))
    (remaining_players : List Player) (available_goods : List String) : String × Rat :=
  match remaining_players with
  | [] => tied_options.headD ("", 0)
  | next_player :: _ =>
    match tied_options with
    | [] => ("", 0)
    | t0 :: ts =>
      ts.foldl (fun b x =>
        if opportunityCost next_player available_goods x <
            opportunityCost next_player available_goods b then x else b) t0

/-- _choose_with_consideration: scan the options as above, then settle a
multi-way tie with the opportunity-cost tie-break, otherwise return the
scan candidate (initially a copy of the top option). -/
def chooseWithConsideration (player_options : List (String × Rat))
    (remaining_players : List Player) (available_goods : List String)
    (max_sacrifice_threshold tol : Rat) : String × Rat :=
  let best := player_options.headD ("", 0)
  let st := considerLoop best.2 remaining_players available_goods max_sacrifice_threshold tol
    player_options best 0 []
  if st.2.2.length > 1 then
    breakTieWithOpportunityCost st.2.2 remaining_players available_goods
  else st.1

/-- One turn of _initial_round_robin_with_consideration: the last player
takes the top option outright, other players choose with consideration. -/
def chooseGoodForTurn (player : Player) (rest : List Player) (available_goods : List String)
    (max_sacrifice_threshold tol : Rat) (top_n : Nat) : String :=
  let opts := getTopOptions player available_goods top_n
  if rest = [] then (opts.headD ("", 0)).1
  else (chooseWithConsideration opts rest available_goods max_sacrifice_threshold tol).1

/-- Turn loop of _initial_round_robin_with_consideration: players act in
order, each appending one chosen good to its bundle and removing it from
the pool; the loop stops when the pool empties. -/
def roundRobinTurns (max_sacrifice_threshold tol : Rat) (top_n : Nat) :
    List Player → AMap → List String → AMap
  | [], alloc, _ => alloc
  | p :: rest, alloc, avail =>
    if avail = [] then alloc
    else
      let chosen := chooseGoodForTurn p rest avail max_sacrifice_threshold tol top_n
      roundRobinTurns max_sacrifice_threshold tol top_n rest
        (updList alloc p.name chosen) (avail.erase chosen)

/-- Variance key used for the Phase 1A player ordering.  The source sorts
by the stored standard deviation; since the standard deviation is the
square root of this nonnegative variance and the square root is strictly
monotone, descending order by variance is the identical order (see
std_deviation_lt_iff below). -/
def varKey (p : Player) : Rat := sampleVariance (p.valuation.map Prod.snd)

/-- Player ordering of Phase 1A: stable descending sort by dispersion. -/
def sortPlayersByDispersion (ps : List Player) : List Player :=
  sortBy (fun p q : Player => varKey q < varKey p) ps

/-- Initial allocation dictionary of Phase 1A: every player maps to an
empty bundle. -/
def initialAlloc (ps : List Player) : AMap := ps.map (fun p => (p.name, []))

/-- _initial_round_robin_with_consideration with explicit configuration
parameters (defaults: ceiling 1/5, tolerance 1/1000, top 3 options). -/
def initialRoundRobin (ps : List Player) (goods : List String)
    (max_sacrifice_threshold tol : Rat) (top_n : Nat) : AMap :=
  roundRobinTurns max_sacrifice_threshold tol top_n
    (sortPlayersByDispersion ps) (initialAlloc ps) goods

/-- Phase 1A at the default configuration values. -/
def phase1A (ps : List Player) (goods : List String) : AMap :=
  initialRoundRobin ps goods (1/5) (1/1000) 3

theorem sampleVariance_nonneg (xs : List Rat) : 0 ≤ sampleVariance xs := by
  rw [sampleVariance]
  split
  · rename_i h
    apply div_nonneg
    · apply List.sum_nonneg
      intro x hx
      obtain ⟨y, _, rfl⟩ := List.mem_map.mp hx
      positivity
    · have : (2 : Rat) ≤ (xs.length : Rat) := by exact_mod_cast h
      linarith
  · exact le_refl 0

theorem std_deviation_lt_iff (xs ys : List Rat) :
    std_deviation xs < std_deviation ys ↔ sampleVariance xs < sampleVariance ys := by
  have hx : std_deviation xs = Real.sqrt ((sampleVariance xs : Real)) := by
    rw [std_deviation]
    split
    · rfl
    · rename_i h
      rw [sampleVariance, if_neg h]
      simp [Real.sqrt_zero]
  have hy : std_deviation ys = Real.sqrt ((sampleVariance ys : Real)) := by
    rw [std_deviation]
    split
    · rfl
    · rename_i h
      rw [sampleVariance, if_neg h]
      simp [Real.sqrt_zero]
  rw [hx, hy]
  rw [Real.sqrt_lt_sqrt_iff (by exact_mod_cast sampleVariance_nonneg xs)]
  exact_mod_cast Iff.rfl

theorem breakTie_mem (tied : List (String × Rat)) (rem : List Player)
    (avail : List String) (h : tied ≠ []) :
    breakTieWithOpportunityCost tied rem avail ∈ tied := by
  rw [breakTieWithOpportunityCost.eq_def]
  match rem with
  | [] =>
    match tied with
    | [] => exact absurd rfl h
    | x :: xs => exact List.mem_cons_self x xs
  | np :: rest =>
    match tied with
    | [] => exact absurd rfl h
    | t0 :: ts =>
      simp only
      obtain ⟨hmem, _, _⟩ := foldlMin_spec (opportunityCost np avail) ts t0
      rcases hmem with heq | hmem
      · rw [heq]; exact List.mem_cons_self t0 ts
      · exact List.mem_cons_of_mem t0 hmem


theorem considerLoop_mem (bv : Rat) (rem : List Player) (avail : List String)
    (ms tol : Rat) (allOpts : List (String × Rat)) :
    ∀ (opts : List (String × Rat)) (best : String × Rat) (bestScore : Rat)
      (tied : List (String × Rat)),
      (∀ o ∈ opts, o ∈ allOpts) →
      (∀ o ∈ tied, o ∈ allOpts ∧ sacrificeRatio bv o.2 ≤ ms) →
      ((considerLoop bv rem avail ms tol opts best bestScore tied).1 ∈ allOpts ∧
          sacrificeRatio bv
            (considerLoop bv rem avail ms tol opts best bestScore tied).1.2 ≤ ms ∨
        (considerLoop bv rem avail ms tol opts best bestScore tied).1 = best) ∧
      (∀ o ∈ (considerLoop bv rem avail ms tol opts best bestScore tied).2.2,
        o ∈ allOpts ∧ sacrificeRatio bv o.2 ≤ ms) := by
  intro opts
  induction opts with
  | nil =>
    intro best bestScore tied hsub htied
    rw [considerLoop]
    exact ⟨Or.inr rfl, htied⟩
  | cons opt rest ih =>
    intro best bestScore tied hsub htied
    rw [considerLoop]
    have hsub' : ∀ o ∈ rest, o ∈ allOpts := fun o ho => hsub o (List.mem_cons_of_mem opt ho)
    have hoptAll : opt ∈ allOpts := hsub opt (List.mem_cons_self opt rest)
    by_cases hskip : sacrificeRatio bv opt.2 > ms
    · rw [if_pos hskip]
      exact ih best bestScore tied hsub' htied
    · rw [if_neg hskip]
      simp only
      by_cases h1 : considerScore bv rem avail opt > bestScore + tol
      · rw [if_pos h1]
        have := ih opt (considerScore bv rem avail opt) [opt] hsub'
          (by intro o ho; simp at ho; subst ho; exact ⟨hoptAll, not_lt.mp hskip⟩)
        refine ⟨?_, this.2⟩
        rcases this.1 with h | h
        · exact Or.inl h
        · exact Or.inl (by rw [h]; exact ⟨hoptAll, not_lt.mp hskip⟩)
      · rw [if_neg h1]
        by_cases h2 : |considerScore bv rem avail opt - bestScore| ≤ tol ∧ bestScore > 0
        · rw [if_pos h2]
          refine ih best bestScore _ hsub' ?_
          split
          · exact htied
          · intro o ho
            rcases List.mem_append.mp ho with h | h
            · exact htied o h
            · simp at h; subst h; exact ⟨hoptAll, not_lt.mp hskip⟩
        · rw [if_neg h2]
          exact ih best bestScore tied hsub' htied

theorem headD_mem {α : Type} (l : List α) (d : α) (h : l ≠ []) : l.headD d ∈ l := by
  match l with
  | [] => exact absurd rfl h
  | x :: xs => exact List.mem_cons_self x xs

theorem chooseWithConsideration_spec (opts : List (String × Rat)) (rem : List Player)
    (avail : List String) (ms tol : Rat) (hne : opts ≠ []) (hms : 0 ≤ ms) :
    chooseWithConsideration opts rem avail ms tol ∈ opts ∧
      sacrificeRatio (opts.headD ("", 0)).2
        (chooseWithConsideration opts rem avail ms tol).2 ≤ ms := by
  rw [chooseWithConsideration]
  set best := opts.headD ("", 0) with hbest
  have hbestmem : best ∈ opts := by
    rw [hbest]
    exact headD_mem opts _ hne
  have hbestratio : sacrificeRatio best.2 best.2 ≤ ms := by
    rw [sacrificeRatio]
    split
    · simp only [sub_self, zero_div]; exact hms
    · exact hms
  obtain ⟨hres, htied⟩ := considerLoop_mem best.2 rem avail ms tol opts opts best 0 []
    (fun o ho => ho) (by simp)
  set r := considerLoop best.2 rem avail ms tol opts best 0 [] with hr
  by_cases hlen : r.2.2.length > 1
  · rw [if_pos hlen]
    have hne2 : r.2.2 ≠ [] := by
      intro hcon
      rw [hcon] at hlen
      simp at hlen
    have := breakTie_mem r.2.2 rem avail hne2
    obtain ⟨hm, hratio⟩ := htied _ this
    exact ⟨hm, hratio⟩
  · rw [if_neg hlen]
    rcases hres with ⟨hm, hratio⟩ | heq
    · exact ⟨hm, hratio⟩
    · rw [heq]
      exact ⟨hbestmem, hbestratio⟩

theorem considerLoop_locked (bv : Rat) (rem : List Player) (avail : List String)
    (ms tol : Rat) (ostar : String × Rat) (htol : 0 ≤ tol) :
    ∀ opts : List (String × Rat),
      (∀ o ∈ opts, o ≠ ostar → sacrificeRatio bv o.2 ≤ ms →
        considerScore bv rem avail o + tol < considerScore bv rem avail ostar) →
      considerLoop bv rem avail ms tol opts ostar
        (considerScore bv rem avail ostar) [ostar] =
        (ostar, considerScore bv rem avail ostar, [ostar]) := by
  intro opts
  induction opts with
  | nil => intro _; rw [considerLoop]
  | cons o rest ih =>
    intro hH
    rw [considerLoop]
    by_cases hskip : sacrificeRatio bv o.2 > ms
    · rw [if_pos hskip]
      exact ih (fun x hx hne hs => hH x (List.mem_cons_of_mem o hx) hne hs)
    · rw [if_neg hskip]
      simp only
      by_cases ho : o = ostar
      · subst ho
        rw [if_neg (by linarith)]
        by_cases h2 : |considerScore bv rem avail o - considerScore bv rem avail o| ≤ tol ∧
            considerScore bv rem avail o > 0
        · rw [if_pos h2]
          rw [if_pos (List.mem_singleton.mpr rfl)]
          exact ih (fun x hx hne hs => hH x (List.mem_cons_of_mem o hx) hne hs)
        · rw [if_neg h2]
          exact ih (fun x hx hne hs => hH x (List.mem_cons_of_mem o hx) hne hs)
      · have hlt := hH o (List.mem_cons_self o rest) ho (not_lt.mp hskip)
        rw [if_neg (by linarith)]
        rw [if_neg ?_]
        · exact ih (fun x hx hne hs => hH x (List.mem_cons_of_mem o hx) hne hs)
        · rintro ⟨habs, _⟩
          rw [abs_le] at habs
          linarith [habs.1]

theorem considerLoop_wins (bv : Rat) (rem : List Player) (avail : List String)
    (ms tol : Rat) (ostar : String × Rat) (htol : 0 ≤ tol)
    (hsurv : sacrificeRatio bv ostar.2 ≤ ms)
    (hbig : considerScore bv rem avail ostar > tol) :
    ∀ (opts : List (String × Rat)) (best : String × Rat) (bestScore : Rat)
      (tied : List (String × Rat)),
      ostar ∈ opts →
      (∀ o ∈ opts, o ≠ ostar → sacrificeRatio bv o.2 ≤ ms →
        considerScore bv rem avail o + tol < considerScore bv rem avail ostar) →
      (bestScore = 0 ∨ bestScore + tol < considerScore bv rem avail ostar) →
      considerLoop bv rem avail ms tol opts best bestScore tied =
        (ostar, considerScore bv rem avail ostar, [ostar]) := by
  intro opts
  induction opts with
  | nil => intro best bestScore tied hmem _ _; exact absurd hmem (List.not_mem_nil ostar)
  | cons o rest ih =>
    intro best bestScore tied hmem hH hinv
    rw [considerLoop]
    by_cases ho : o = ostar
    · subst ho
      rw [if_neg (not_lt.mpr hsurv)]
      simp only
      rw [if_pos ?_]
      · exact considerLoop_locked bv rem avail ms tol o htol rest
          (fun x hx hne hs => hH x (List.mem_cons_of_mem o hx) hne hs)
      · rcases hinv with h | h
        · rw [h]; linarith
        · linarith
    · have hmem' : ostar ∈ rest := by
        rcases List.mem_cons.mp hmem with h | h
        · exact absurd h.symm ho
        · exact h
      have hH' : ∀ x ∈ rest, x ≠ ostar → sacrificeRatio bv x.2 ≤ ms →
          considerScore bv rem avail x + tol < considerScore bv rem avail ostar :=
        fun x hx hne hs => hH x (List.mem_cons_of_mem o hx) hne hs
      by_cases hskip : sacrificeRatio bv o.2 > ms
      · rw [if_pos hskip]
        exact ih best bestScore tied hmem' hH' hinv
      · rw [if_neg hskip]
        simp only
        have hlt := hH o (List.mem_cons_self o rest) ho (not_lt.mp hskip)
        by_cases h1 : considerScore bv rem avail o > bestScore + tol
        · rw [if_pos h1]
          exact ih o (considerScore bv rem avail o) [o] hmem' hH' (Or.inr (by linarith))
        · rw [if_neg h1]
          by_cases h2 : |considerScore bv rem avail o - bestScore| ≤ tol ∧ bestScore > 0
          · rw [if_pos h2]
            exact ih best bestScore _ hmem' hH' hinv
          · rw [if_neg h2]
            exact ih best bestScore tied hmem' hH' hinv

theorem considerLoop_allSmall (bv : Rat) (rem : List Player) (avail : List String)
    (ms tol : Rat) (best : String × Rat) :
    ∀ opts : List (String × Rat),
      (∀ o ∈ opts, sacrificeRatio bv o.2 ≤ ms → considerScore bv rem avail o ≤ tol) →
      considerLoop bv rem avail ms tol opts best 0 [] = (best, 0, []) := by
  intro opts
  induction opts with
  | nil => intro _; rw [considerLoop]
  | cons o rest ih =>
    intro hH
    rw [considerLoop]
    by_cases hskip : sacrificeRatio bv o.2 > ms
    · rw [if_pos hskip]
      exact ih (fun x hx hs => hH x (List.mem_cons_of_mem o hx) hs)
    · rw [if_neg hskip]
      simp only
      have hsmall := hH o (List.mem_cons_self o rest) (not_lt.mp hskip)
      rw [if_neg (by linarith)]
      rw [if_neg (by rintro ⟨_, hpos⟩; exact absurd hpos (lt_irrefl 0))]
      exact ih (fun x hx hs => hH x (List.mem_cons_of_mem o hx) hs)

/-- Claim C6 as amended: in a Phase 1A consideration turn (a) the chosen
option is always one of the considered options and its sacrifice ratio
never exceeds the ceiling; (b) an option surviving the ceiling whose
consideration score exceeds the tolerance and exceeds the score of every
other surviving option by more than the tolerance is chosen; (c) when no
surviving option scores above the tolerance, the top-value option is
chosen by default, regardless of the score ranking of the surviving
options (the original claim promised the strictly highest score would win
here, which is false). -/
theorem claim_C6_amended :
    (∀ (opts : List (String × Rat)) (rem : List Player) (avail : List String) (ms tol : Rat),
      opts ≠ [] → 0 ≤ ms →
      chooseWithConsideration opts rem avail ms tol ∈ opts ∧
        sacrificeRatio (opts.headD ("", 0)).2
          (chooseWithConsideration opts rem avail ms tol).2 ≤ ms) ∧
    (∀ (opts : List (String × Rat)) (rem : List Player) (avail : List String)
      (ms tol : Rat) (ostar : String × Rat), 0 ≤ tol → ostar ∈ opts →
      sacrificeRatio (opts.headD ("", 0)).2 ostar.2 ≤ ms →
      considerScore (opts.headD ("", 0)).2 rem avail ostar > tol →
      (∀ o ∈ opts, o ≠ ostar → sacrificeRatio (opts.headD ("", 0)).2 o.2 ≤ ms →
        considerScore (opts.headD ("", 0)).2 rem avail o + tol <
          considerScore (opts.headD ("", 0)).2 rem avail ostar) →
      chooseWithConsideration opts rem avail ms tol = ostar) ∧
    (∀ (opts : List (String × Rat)) (rem : List Player) (avail : List String) (ms tol : Rat),
      (∀ o ∈ opts, sacrificeRatio (opts.headD ("", 0)).2 o.2 ≤ ms →
        considerScore (opts.headD ("", 0)).2 rem avail o ≤ tol) →
      chooseWithConsideration opts rem avail ms tol = opts.headD ("", 0)) := by
  refine ⟨fun opts rem avail ms tol hne hms =>
    chooseWithConsideration_spec opts rem avail ms tol hne hms, ?_, ?_⟩
  · intro opts rem avail ms tol ostar htol hmem hsurv hbig hH
    rw [chooseWithConsideration]
    rw [considerLoop_wins (opts.headD ("", 0)).2 rem avail ms tol ostar htol hsurv hbig
      opts (opts.headD ("", 0)) 0 [] hmem hH (Or.inl rfl)]
    rw [if_neg (by simp)]
  · intro opts rem avail ms tol hH
    rw [chooseWithConsideration]
    rw [considerLoop_allSmall (opts.headD ("", 0)).2 rem avail ms tol (opts.headD ("", 0))
      opts hH]
    rw [if_neg (by simp)]

/-- Acting player of the C6 counterexample turn. -/
def steadyP3 : Player := ⟨"P3", [("g1", 1/2), ("g2", 9/20)]⟩

/-- Next (last) player of the C6 counterexample turn. -/
def steadyP4 : Player := ⟨"P4", [("g1", 101/2000), ("g2", 0)]⟩

/-- Considered options of the C6 counterexample turn. -/
def turnOpts : List (String × Rat) := getTopOptions steadyP3 ["g1", "g2"] 3

/-- Counterexample to claim C6: both options survive the sacrifice ceiling,
the second option has the strictly highest consideration score (1/2000,
strictly positive, against 0) and no two strictly positive scores tie, yet
the turn chooses the first option g1: when no score exceeds the tolerance
the code returns the top-value option regardless of score ranking. -/
theorem claim_C6_counterexample :
    turnOpts = [("g1", 1/2), ("g2", 9/20)] ∧
    (chooseWithConsideration turnOpts [steadyP4] ["g1", "g2"] (1/5) (1/1000)).1 = "g1" ∧
    sacrificeRatio (1/2) (9/20) ≤ 1/5 ∧ sacrificeRatio (1/2) (1/2) ≤ 1/5 ∧
    considerScore (1/2) [steadyP4] ["g1", "g2"] ("g1", 1/2) = 0 ∧
    considerScore (1/2) [steadyP4] ["g1", "g2"] ("g2", 9/20) = 1/2000 ∧
    ((0 : Rat) < 1/2000) := by
  refine ⟨?_, ?_, ?_, ?_, ?_, ?_, by norm_num⟩
  · norm_num +decide [turnOpts, getTopOptions, sortBy, stableInsert, steadyP3,
      Player.get_valuation, alookupD]
  · norm_num +decide [turnOpts, getTopOptions, sortBy, stableInsert, steadyP3, steadyP4,
      chooseWithConsideration, considerLoop, considerScore, futureBenefit, sacrificeRatio,
      breakTieWithOpportunityCost, opportunityCost, maxValOver, Player.get_valuation, alookupD]
  · norm_num [sacrificeRatio]
  · norm_num [sacrificeRatio]
  · norm_num +decide [considerScore, futureBenefit, steadyP4, Player.get_valuation, alookupD]
  · norm_num +decide [considerScore, futureBenefit, steadyP4, Player.get_valuation, alookupD]

/-- Witness for the amended claim C6: on the counterexample turn the
default clause applies (all scores at most the tolerance, first option
returned), and on a turn with a clear winner above the tolerance that
winner is returned. -/
theorem claim_C6_amended_witness :
    chooseWithConsideration turnOpts [steadyP4] ["g1", "g2"] (1/5) (1/1000) =
      turnOpts.headD ("", 0) ∧
    chooseWithConsideration [("a", 1), ("b", 1)] [⟨"N", [("a", 0), ("b", 1)]⟩]
      ["a", "b"] (1/5) (1/1000) = ("a", 1) := by
  constructor
  · apply claim_C6_amended.2.2
    intro o ho
    rw [show turnOpts = [("g1", 1/2), ("g2", 9/20)] by
      norm_num +decide [turnOpts, getTopOptions, sortBy, stableInsert, steadyP3,
        Player.get_valuation, alookupD]] at ho
    rcases List.mem_cons.mp ho with rfl | ho'
    · intro _
      norm_num +decide [turnOpts, getTopOptions, sortBy, stableInsert, steadyP3, steadyP4,
        considerScore, futureBenefit, Player.get_valuation, alookupD]
    · rcases List.mem_cons.mp ho' with rfl | ho''
      · intro _
        norm_num +decide [turnOpts, getTopOptions, sortBy, stableInsert, steadyP3, steadyP4,
          considerScore, futureBenefit, Player.get_valuation, alookupD]
      · exact absurd ho'' (List.not_mem_nil o)
  · apply claim_C6_amended.2.1
    · norm_num
    · exact List.mem_cons_self _ _
    · norm_num [sacrificeRatio]
    · norm_num +decide [considerScore, futureBenefit, Player.get_valuation, alookupD]
    · intro o ho hne _
      rcases List.mem_cons.mp ho with rfl | ho'
      · exact absurd rfl hne
      · rcases List.mem_cons.mp ho' with rfl | ho''
        · norm_num +decide [considerScore, futureBenefit, Player.get_valuation, alookupD]
        · exact absurd ho'' (List.not_mem_nil o)

theorem stableInsert_perm {α : Type} (r : α → α → Prop) [DecidableRel r] (x : α)
    (l : List α) : (stableInsert r x l).Perm (x :: l) := by
  induction l with
  | nil => rfl
  | cons y ys ih =>
    rw [stableInsert]
    split
    · rfl
    · exact List.Perm.trans (List.Perm.cons y ih) (List.Perm.swap x y ys)

theorem sortBy_perm {α : Type} (r : α → α → Prop) [DecidableRel r] (l : List α) :
    (sortBy r l).Perm l := by
  have main : ∀ (l acc : List α),
      (l.foldl (fun acc x => stableInsert r x acc) acc).Perm (acc ++ l) := by
    intro l
    induction l with
    | nil => intro acc; simp
    | cons x xs ih =>
      intro acc
      simp only [List.foldl_cons]
      refine List.Perm.trans (ih _) ?_
      refine List.Perm.trans ((stableInsert_perm r x acc).append_right xs) ?_
      simp only [List.cons_append]
      exact List.perm_middle.symm
  simpa using main l []

theorem updList_nil (k g : String) : updList [] k g = [] := rfl

theorem updList_cons (e : String × List String) (t : AMap) (k g : String) :
    updList (e :: t) k g =
      (if e.1 = k then (e.1, e.2 ++ [g]) else e) :: updList t k g := rfl

theorem alookupD_nil {β : Type} (k : String) (d : β) : alookupD [] k d = d := rfl

theorem alookupD_cons {β : Type} (e : String × β) (t : List (String × β)) (k : String)
    (d : β) : alookupD (e :: t) k d = if e.1 = k then e.2 else alookupD t k d := rfl

theorem updList_keys (a : AMap) (k g : String) :
    (updList a k g).map Prod.fst = a.map Prod.fst := by
  induction a with
  | nil => rfl
  | cons e t ih =>
    rw [updList_cons, List.map_cons, List.map_cons, ih]
    congr 1
    split
    · rfl
    · rfl

theorem updList_id (a : AMap) (k g : String) (hk : k ∉ a.map Prod.fst) :
    updList a k g = a := by
  induction a with
  | nil => rfl
  | cons e t ih =>
    rw [List.map_cons] at hk
    have hek : ¬ e.1 = k := fun h => hk (by rw [← h]; exact List.mem_cons_self e.1 _)
    rw [updList_cons, if_neg hek, ih (fun h => hk (List.mem_cons_of_mem e.1 h))]

theorem bundleOf_updList_ne (a : AMap) (k g n : String) (h : n ≠ k) :
    bundleOf (updList a k g) n = bundleOf a n := by
  induction a with
  | nil => rfl
  | cons e t ih =>
    rw [updList_cons, bundleOf, bundleOf, alookupD_cons, alookupD_cons]
    by_cases hek : e.1 = k
    · rw [if_pos hek]
      simp only
      rw [if_neg (by rw [hek]; exact fun hc => h hc.symm),
        if_neg (by rw [hek]; exact fun hc => h hc.symm)]
      exact ih
    · rw [if_neg hek]
      by_cases hen : e.1 = n
      · rw [if_pos hen, if_pos hen]
      · rw [if_neg hen, if_neg hen]
        exact ih

theorem bundleOf_updList_self (a : AMap) (k g : String) (hk : k ∈ a.map Prod.fst) :
    bundleOf (updList a k g) k = bundleOf a k ++ [g] := by
  induction a with
  | nil => simp at hk
  | cons e t ih =>
    by_cases hek : e.1 = k
    · rw [updList_cons, if_pos hek]
      simp only [bundleOf, alookupD_cons, hek, if_true]
    · rw [updList_cons, if_neg hek]
      simp only [bundleOf, alookupD_cons, if_neg hek]
      rw [List.map_cons] at hk
      rcases List.mem_cons.mp hk with h | h
      · exact absurd h.symm hek
      · exact ih h

theorem updList_flatten_perm (a : AMap) (k g : String)
    (hkeys : (a.map Prod.fst).Nodup) (hk : k ∈ a.map Prod.fst) :
    (((updList a k g).map Prod.snd).flatten).Perm ((a.map Prod.snd).flatten ++ [g]) := by
  induction a with
  | nil => simp at hk
  | cons e t ih =>
    rw [List.map_cons] at hk
    rw [List.map_cons, List.nodup_cons] at hkeys
    by_cases hek : e.1 = k
    · rw [updList_cons, if_pos hek]
      have hnt : k ∉ t.map Prod.fst := by rw [← hek]; exact hkeys.1
      rw [updList_id t k g hnt]
      simp only [List.map_cons, List.flatten_cons, List.append_assoc]
      refine List.Perm.append_left e.2 ?_
      exact (List.perm_append_singleton g _).symm
    · rw [updList_cons, if_neg hek]
      simp only [List.map_cons, List.flatten_cons, List.append_assoc]
      exact List.Perm.append_left e.2 (ih hkeys.2 ((List.mem_cons.mp hk).resolve_left (fun h => hek h.symm)))

theorem getTopOptions_mem (player : Player) (avail : List String) (n : Nat)
    (o : String × Rat) (h : o ∈ getTopOptions player avail n) : o.1 ∈ avail := by
  rw [getTopOptions] at h
  have h2 := List.mem_of_mem_take h
  have h3 := (sortBy_perm _ _).mem_iff.mp h2
  obtain ⟨g, hg, rfl⟩ := List.mem_map.mp h3
  exact hg

theorem getTopOptions_ne_nil (player : Player) (avail : List String) (n : Nat)
    (ha : avail ≠ []) (hn : 0 < n) : getTopOptions player avail n ≠ [] := by
  rw [getTopOptions]
  intro hcon
  have hlen := congrArg List.length hcon
  rw [List.length_take, (sortBy_perm _ _).length_eq, List.length_map] at hlen
  simp only [List.length_nil] at hlen
  rcases Nat.min_eq_zero_iff.mp hlen with h | h
  · omega
  · exact ha (List.length_eq_zero.mp h)

theorem chooseGoodForTurn_mem (player : Player) (rest : List Player) (avail : List String)
    (ms tol : Rat) (tn : Nat) (ha : avail ≠ []) (hms : 0 ≤ ms) (htn : 0 < tn) :
    chooseGoodForTurn player rest avail ms tol tn ∈ avail := by
  rw [chooseGoodForTurn]
  have hopts := getTopOptions_ne_nil player avail tn ha htn
  by_cases hrest : rest = []
  · rw [if_pos hrest]
    exact getTopOptions_mem player avail tn _ (headD_mem _ _ hopts)
  · rw [if_neg hrest]
    exact getTopOptions_mem player avail tn _
      (chooseWithConsideration_spec _ rest avail ms tol hopts hms).1

theorem roundRobinTurns_nil (ms tol : Rat) (tn : Nat) (alloc : AMap) (avail : List String) :
    roundRobinTurns ms tol tn [] alloc avail = alloc := rfl

theorem roundRobinTurns_cons (ms tol : Rat) (tn : Nat) (p : Player) (rest : List Player)
    (alloc : AMap) (avail : List String) :
    roundRobinTurns ms tol tn (p :: rest) alloc avail =
      if avail = [] then alloc
      else roundRobinTurns ms tol tn rest
        (updList alloc p.name (chooseGoodForTurn p rest avail ms tol tn))
        (avail.erase (chooseGoodForTurn p rest avail ms tol tn)) := rfl

theorem roundRobin_spec (ms tol : Rat) (tn : Nat) (hms : 0 ≤ ms) (htn : 0 < tn) :
    ∀ (ord : List Player) (alloc : AMap) (avail : List String),
      avail.Nodup →
      (((alloc.map Prod.snd).flatten ++ avail).Nodup) →
      ((alloc.map Prod.fst).Nodup) →
      (∀ p ∈ ord, p.name ∈ alloc.map Prod.fst) →
      ((roundRobinTurns ms tol tn ord alloc avail).map Prod.fst = alloc.map Prod.fst ∧
       (((roundRobinTurns ms tol tn ord alloc avail).map Prod.snd).flatten).Nodup ∧
       (∀ g ∈ ((roundRobinTurns ms tol tn ord alloc avail).map Prod.snd).flatten,
         g ∈ (alloc.map Prod.snd).flatten ∨ g ∈ avail) ∧
       (((roundRobinTurns ms tol tn ord alloc avail).map Prod.snd).flatten).length =
         ((alloc.map Prod.snd).flatten).length + min ord.length avail.length ∧
       (∀ n, (∀ p ∈ ord, p.name ≠ n) →
         bundleOf (roundRobinTurns ms tol tn ord alloc avail) n = bundleOf alloc n) ∧
       ((ord.map Player.name).Nodup → ∀ p ∈ ord,
         (bundleOf (roundRobinTurns ms tol tn ord alloc avail) p.name).length ≤
           (bundleOf alloc p.name).length + 1)) := by
  intro ord
  induction ord with
  | nil =>
    intro alloc avail hav hinv hkeys hord
    rw [roundRobinTurns_nil]
    refine ⟨rfl, hinv.of_append_left, fun g hg => Or.inl hg, by simp, fun n _ => rfl,
      fun _ p hp => absurd hp (List.not_mem_nil p)⟩
  | cons p rest ih =>
    intro alloc avail hav hinv hkeys hord
    rw [roundRobinTurns_cons]
    by_cases hae : avail = []
    · rw [if_pos hae]
      refine ⟨rfl, hinv.of_append_left, fun g hg => Or.inl hg, ?_, fun n _ => rfl,
        fun _ p hp => ?_⟩
      · rw [hae]; simp
      · omega
    · rw [if_neg hae]
      set chosen := chooseGoodForTurn p rest avail ms tol tn with hch
      have hchosen : chosen ∈ avail := chooseGoodForTurn_mem p rest avail ms tol tn hae hms htn
      have hpk : p.name ∈ alloc.map Prod.fst := hord p (List.mem_cons_self p rest)
      set alloc2 := updList alloc p.name chosen with ha2
      set avail2 := avail.erase chosen with hv2
      have hflat : ((alloc2.map Prod.snd).flatten).Perm
          ((alloc.map Prod.snd).flatten ++ [chosen]) :=
        updList_flatten_perm alloc p.name chosen hkeys hpk
      have hkeys2 : alloc2.map Prod.fst = alloc.map Prod.fst := updList_keys alloc p.name chosen
      have hav2 : avail2.Nodup := hav.erase chosen
      have hpermAll : (((alloc2.map Prod.snd).flatten) ++ avail2).Perm
          (((alloc.map Prod.snd).flatten) ++ avail) := by
        refine List.Perm.trans (hflat.append_right avail2) ?_
        rw [List.append_assoc]
        refine List.Perm.append_left _ ?_
        have : ([chosen] ++ avail2) = chosen :: avail2 := rfl
        rw [this]
        exact (List.perm_cons_erase hchosen).symm
      have hinv2 : (((alloc2.map Prod.snd).flatten) ++ avail2).Nodup :=
        hpermAll.symm.nodup hinv
      have hord2 : ∀ q ∈ rest, q.name ∈ alloc2.map Prod.fst := by
        intro q hq
        rw [hkeys2]
        exact hord q (List.mem_cons_of_mem p hq)
      obtain ⟨ih1, ih2, ih3, ih4, ih5, ih6⟩ :=
        ih alloc2 avail2 hav2 hinv2 (by rw [hkeys2]; exact hkeys) hord2
      refine ⟨by rw [ih1, hkeys2], ih2, ?_, ?_, ?_, ?_⟩
      · intro g hg
        rcases ih3 g hg with h | h
        · rcases List.mem_append.mp (hflat.mem_iff.mp h) with h2 | h2
          · exact Or.inl h2
          · rw [List.mem_singleton.mp h2]
            exact Or.inr hchosen
        · exact Or.inr (List.mem_of_mem_erase h)
      · rw [ih4, hflat.length_eq, List.length_append]
        have h1 : ([chosen] : List String).length = 1 := rfl
        have hlen2 : avail2.length = avail.length - 1 := List.length_erase_of_mem hchosen
        have hpos : 0 < avail.length := List.length_pos.mpr hae
        rw [h1, List.length_cons, hlen2]
        omega
      · intro n hn
        have hne : p.name ≠ n := hn p (List.mem_cons_self p rest)
        rw [ih5 n (fun q hq => hn q (List.mem_cons_of_mem p hq))]
        rw [ha2]
        exact bundleOf_updList_ne alloc p.name chosen n (fun h => hne h.symm)
      · intro hnames q hq
        rw [List.map_cons, List.nodup_cons] at hnames
        rcases List.mem_cons.mp hq with rfl | hq2
        · have huntouched : bundleOf (roundRobinTurns ms tol tn rest alloc2 avail2) q.name =
              bundleOf alloc2 q.name := by
            refine ih5 q.name ?_
            intro r hr hcon
            exact hnames.1 (by rw [← hcon]; exact List.mem_map_of_mem Player.name hr)
          rw [huntouched, ha2, bundleOf_updList_self alloc q.name chosen hpk]
          rw [List.length_append]
          simp
        · have hqp : q.name ≠ p.name := by
            intro hcon
            exact hnames.1 (by rw [← hcon]; exact List.mem_map_of_mem Player.name hq2)
          have := ih6 hnames.2 q hq2
          rw [ha2, bundleOf_updList_ne alloc p.name chosen q.name hqp] at this
          exact this

theorem bundleOf_initialAlloc (ps : List Player) (n : String) :
    bundleOf (initialAlloc ps) n = [] := by
  induction ps with
  | nil => rfl
  | cons p t ih =>
    rw [initialAlloc, List.map_cons, bundleOf, alookupD_cons]
    split
    · rfl
    · rw [bundleOf, initialAlloc] at ih
      exact ih

theorem initialAlloc_keys (ps : List Player) :
    (initialAlloc ps).map Prod.fst = ps.map Player.name := by
  rw [initialAlloc, List.map_map]
  rfl

theorem initialAlloc_flatten (ps : List Player) :
    ((initialAlloc ps).map Prod.snd).flatten = [] := by
  induction ps with
  | nil => rfl
  | cons p t ih =>
    rw [initialAlloc, List.map_cons, List.map_cons, List.flatten_cons]
    rw [initialAlloc] at ih
    simp only [List.nil_append]
    exact ih

theorem map_bundleOf_eq (ps : List Player) (m : AMap)
    (hkeys : m.map Prod.fst = ps.map Player.name)
    (hnames : (ps.map Player.name).Nodup) :
    ps.map (fun p => bundleOf m p.name) = m.map Prod.snd := by
  induction ps generalizing m with
  | nil =>
    match m with
    | [] => rfl
    | e :: t => simp at hkeys
  | cons p t ih =>
    match m with
    | [] => simp at hkeys
    | e :: em =>
      rw [List.map_cons, List.map_cons] at hkeys
      rw [List.map_cons, List.nodup_cons] at hnames
      have he1 : e.1 = p.name := by
        have := congrArg (fun l => l.headD "") hkeys
        simpa using this
      have htl : em.map Prod.fst = t.map Player.name := by
        have := congrArg List.tail hkeys
        simpa using this
      rw [List.map_cons, List.map_cons]
      congr 1
      · rw [bundleOf, alookupD_cons, if_pos he1]
      · have hstep : t.map (fun q => bundleOf (e :: em) q.name) =
            t.map (fun q => bundleOf em q.name) := by
          refine List.map_congr_left ?_
          intro q hq
          have hqname : q.name ∈ t.map Player.name := List.mem_map_of_mem Player.name hq
          have hne : ¬ e.1 = q.name := by
            rw [he1]
            intro hcon
            exact hnames.1 (by rw [hcon]; exact hqname)
          rw [bundleOf, alookupD_cons, if_neg hne]
          rfl
        rw [hstep]
        exact ih em htl hnames.2

/-- Claim C9: after Phase 1A every player holds at most one good, exactly
min(4, number of goods) goods are assigned in total, every assigned good
comes from the input goods list, and no good is assigned twice. -/
theorem claim_C9 (ps : List Player) (goods : List String)
    (hlen : ps.length = 4) (hnames : (ps.map Player.name).Nodup)
    (hgoods : goods.Nodup) :
    (∀ p ∈ ps, (bundleOf (phase1A ps goods) p.name).length ≤ 1) ∧
    ((ps.map (fun p => (bundleOf (phase1A ps goods) p.name).length)).sum =
      min 4 goods.length) ∧
    (∀ p ∈ ps, ∀ g ∈ bundleOf (phase1A ps goods) p.name, g ∈ goods) ∧
    ((ps.map (fun p => bundleOf (phase1A ps goods) p.name)).flatten).Nodup := by
  have hms : (0 : Rat) ≤ 1/5 := by norm_num
  have htn : 0 < 3 := by norm_num
  set ord := sortPlayersByDispersion ps with hord
  have hperm : ord.Perm ps := sortBy_perm _ ps
  have hordnames : (ord.map Player.name).Perm (ps.map Player.name) := hperm.map Player.name
  have hordnodup : (ord.map Player.name).Nodup := hordnames.nodup_iff.mpr hnames
  have hkeys0 : (initialAlloc ps).map Prod.fst = ps.map Player.name := initialAlloc_keys ps
  have hflat0 : ((initialAlloc ps).map Prod.snd).flatten = [] := initialAlloc_flatten ps
  obtain ⟨ih1, ih2, ih3, ih4, ih5, ih6⟩ :=
    roundRobin_spec (1/5) (1/1000) 3 hms htn ord (initialAlloc ps) goods hgoods
      (by rw [hflat0]; simpa using hgoods)
      (by rw [hkeys0]; exact hnames)
      (by
        intro p hp
        rw [hkeys0]
        exact List.mem_map_of_mem Player.name (hperm.mem_iff.mp hp))
  have hresult : phase1A ps goods = roundRobinTurns (1/5) (1/1000) 3 ord (initialAlloc ps) goods := rfl
  have hkeysR : (phase1A ps goods).map Prod.fst = ps.map Player.name := by
    rw [hresult, ih1, hkeys0]
  have hmapeq : ps.map (fun p => bundleOf (phase1A ps goods) p.name) =
      (phase1A ps goods).map Prod.snd :=
    map_bundleOf_eq ps (phase1A ps goods) hkeysR hnames
  refine ⟨?_, ?_, ?_, ?_⟩
  · intro p hp
    have := ih6 hordnodup p (hperm.mem_iff.mpr hp)
    rw [bundleOf_initialAlloc] at this
    rw [hresult]
    simpa using this
  · have h1 : ps.map (fun p => (bundleOf (phase1A ps goods) p.name).length) =
        ((phase1A ps goods).map Prod.snd).map List.length := by
      rw [← hmapeq, List.map_map]
      rfl
    rw [h1]
    have h2 : (((phase1A ps goods).map Prod.snd).map List.length).sum =
        (((phase1A ps goods).map Prod.snd).flatten).length := by
      rw [List.length_flatten]
    rw [h2, hresult, ih4, hflat0]
    have h3 : ord.length = 4 := by rw [hperm.length_eq, hlen]
    rw [h3]
    simp
  · intro p hp g hg
    have hmem : g ∈ ((phase1A ps goods).map Prod.snd).flatten :=
      List.mem_flatten.mpr ⟨bundleOf (phase1A ps goods) p.name,
        by rw [← hmapeq]; exact List.mem_map_of_mem _ hp, hg⟩
    rw [hresult] at hmem
    rcases ih3 g hmem with h | h
    · rw [hflat0] at h
      exact absurd h (List.not_mem_nil g)
    · exact h
  · rw [hmapeq, hresult]
    exact ih2

/-- Witness for claim C9 at the concrete section 8 scenario players. -/
theorem claim_C9_witness :
    (∀ p ∈ efxPlayers,
      (bundleOf (phase1A efxPlayers ["A", "B", "C", "D"]) p.name).length ≤ 1) ∧
    ((efxPlayers.map (fun p =>
      (bundleOf (phase1A efxPlayers ["A", "B", "C", "D"]) p.name).length)).sum =
      min 4 (["A", "B", "C", "D"] : List String).length) ∧
    (∀ p ∈ efxPlayers, ∀ g ∈ bundleOf (phase1A efxPlayers ["A", "B", "C", "D"]) p.name,
      g ∈ (["A", "B", "C", "D"] : List String)) ∧
    ((efxPlayers.map (fun p =>
      bundleOf (phase1A efxPlayers ["A", "B", "C", "D"]) p.name)).flatten).Nodup :=
  claim_C9 efxPlayers ["A", "B", "C", "D"]
    (by norm_num [efxPlayers])
    (by norm_num +decide [efxPlayers])
    (by norm_num +decide)

/-- _create_efx_bundles_split_division: sort the goods by the envier
valuation descending, alternate between the two bundles switching whenever
the bundle just extended exceeds the other in value (with the length
guards of the source), and finally move one item over when a bundle ended
up empty. -/
def splitDivision (player : Player) (goods : List String) :
    Option (List String × List String) :=
  if goods.length < 2 then none
  else
    let sorted_goods :=
      sortBy (fun a b : String => player.get_valuation b < player.get_valuation a) goods
    let st := sorted_goods.foldl (fun st good =>
      if st.2.2 = 1 then
        let b1 := st.1 ++ [good]
        if bundleValue player b1 > bundleValue player st.2.1 ∧
            sorted_goods.length > b1.length
        then (b1, st.2.1, 2) else (b1, st.2.1, 1)
      else
        let b2 := st.2.1 ++ [good]
        if bundleValue player b2 > bundleValue player st.1 ∧
            sorted_goods.length > st.1.length + b2.length
        then (st.1, b2, 1) else (st.1, b2, 2))
      (([], [], 1) : List String × List String × Nat)
    if st.1 = [] ∧ st.2.1 ≠ [] then
      some (st.1 ++ [st.2.1.getLastD ""], st.2.1.dropLast)
    else if st.2.1 = [] ∧ st.1 ≠ [] then
      some (st.1.dropLast, st.2.1 ++ [st.1.getLastD ""])
    else some (st.1, st.2.1)

/-- _is_division_efx_for_player: both bundles nonempty, and under either
ownership the player does not envy the other bundle once any single item
is removed from it. -/
def isDivisionEFX (player : Player) (bundle_a bundle_b : List String) : Bool :=
  if bundle_a = [] ∨ bundle_b = [] then false
  else
    (bundle_b.all (fun item => decide (bundleValue player
        (bundle_b.filter (fun g => g ≠ item)) ≤ bundleValue player bundle_a))) &&
    (bundle_a.all (fun item => decide (bundleValue player
        (bundle_a.filter (fun g => g ≠ item)) ≤ bundleValue player bundle_b)))

/-- _find_efx_division_for_envier: try the split division and keep it only
when it is EFX for the envier. -/
def findEFXDivision (envier : Player) (all_goods : List String) :
    Option (List String × List String) :=
  if all_goods.length < 2 then none
  else
    match splitDivision envier all_goods with
    | some d => if isDivisionEFX envier d.1 d.2 then some d else none
    | none => none

/-- _get_envy_relationships: ordered pairs of distinct-name players with
strictly positive EFX-envy, in player-major order. -/
def envyRelationships (ps : List Player) (m : AMap) : List (String × String) :=
  ps.flatMap (fun pi' =>
    (ps.filter (fun pj => pi'.name ≠ pj.name ∧ efxPair pi' pj (asAlloc m) > 0)).map
      (fun pj => (pi'.name, pj.name)))

/-- Structural Phase 2 state fingerprint of _create_phase2_state_hash: the
queue as a canonically sorted duplicate-free pair list (the frozenset of
the source) together with the involved player names in ascending order,
each with its goods sorted (the embedding compares the hashed structure
itself, the idealisation of the integer hash). -/
def fingerprint (q : List (String × String)) (m : AMap) :
    List (String × String) × List (String × List String) :=
  (sortBy (fun x y : String × String => x.1 < y.1 ∨ (x.1 = y.1 ∧ x.2 < y.2)) q.dedup,
   (sortBy (fun a b : String => a < b) ((q.map Prod.fst ++ q.map Prod.snd).dedup)).map
     (fun n => (n, sortBy (fun a b : String => a < b) (bundleOf m n))))

/-- Result of one queue entry of _phase2_stepwise_redistribution: the new
allocation, queue and seen set, and whether a division was attempted (the
source skips its end-of-step zero check on the continue branches). -/
structure StepResult where
  alloc : AMap
  queue : List (String × String)
  seen : List (List (String × String) × List (String × List String))
  attempted : Bool
  deriving DecidableEq

/-- Body of one Phase 2 queue entry: skip when fewer than two combined
goods or no EFX division exists (state unchanged, seen retained); with a
division, the envied player takes the bundle it values more (ties favour
bundle A) and the result replaces the allocation exactly when it strictly
lowers total EFX-envy, in which case the queue is recomputed and the seen
set reset; otherwise everything is left unchanged. -/
def phase2Step (ps : List Player) (m : AMap) (envier_name envied_name : String)
    (rest : List (String × String))
    (seen : List (List (String × String) × List (String × List String))) : StepResult :=
  let all_goods := bundleOf m envier_name ++ bundleOf m envied_name
  if all_goods.length < 2 then ⟨m, rest, seen, false⟩
  else
    match findEFXDivision (playerByName ps envier_name) all_goods with
    | none => ⟨m, rest, seen, false⟩
    | some (bundle_a, bundle_b) =>
      let envied_obj := playerByName ps envied_name
      let envied_chosen :=
        if bundleValue envied_obj bundle_a ≥ bundleValue envied_obj bundle_b
        then bundle_a else bundle_b
      let envier_gets :=
        if bundleValue envied_obj bundle_a ≥ bundleValue envied_obj bundle_b
        then bundle_b else bundle_a
      let test := ps.map (fun p => (p.name,
        if p.name = envier_name then envier_gets
        else if p.name = envied_name then envied_chosen
        else bundleOf m p.name))
      if totalEFXEnvy ps test < totalEFXEnvy ps m then
        ⟨test, envyRelationships ps test, [], true⟩
      else ⟨m, rest, seen, true⟩

/-- Phase 2 outcome: a returned allocation with its step count, one of the
two fatal errors, or exhaustion of the termination fuel (proved
unreachable for the fuel used by phase2). -/
inductive P2Result where
  | success (a : AMap) (steps : Nat)
  | cycleDetected
  | exhausted
  | outOfFuel
  deriving DecidableEq

/-- Main loop of _phase2_stepwise_redistribution: with an empty queue
return the allocation when total EFX-envy is zero and fail Exhausted
otherwise; on a nonempty queue fail CycleDetected when the fingerprint of
(queue, involved goods) was seen, else record it, process the head pair,
and return the allocation as soon as the end-of-step check sees zero total
EFX-envy. -/
def phase2Loop (ps : List Player) :
    Nat → AMap → List (String × String) →
      List (List (String × String) × List (String × List String)) → Nat → P2Result
  | 0, _, _, _, _ => P2Result.outOfFuel
  | fuel + 1, m, queue, seen, steps =>
    match queue with
    | [] => if totalEFXEnvy ps m = 0 then P2Result.success m steps else P2Result.exhausted
    | (en, ed) :: rest =>
      if fingerprint queue m ∈ seen then P2Result.cycleDetected
      else
        let r := phase2Step ps m en ed rest (fingerprint queue m :: seen)
        if r.attempted ∧ totalEFXEnvy ps r.alloc = 0 then P2Result.success r.alloc (steps + 1)
        else phase2Loop ps fuel r.alloc r.queue r.seen (steps + 1)

/-- Union of the goods referenced by the bundles of the players, the pool
inside which every Phase 2 allocation lives. -/
def gsUnion (ps : List Player) (m : AMap) : Finset String :=
  ((ps.map (fun p => bundleOf m p.name)).flatten).toFinset

/-- EFX-envy matrix entry computed from bundles given as finite sets
(diagonal 0, empty envied bundle 0, otherwise positive part after removing
the infimum-valued good). -/
def efxPairFin (pi' pj : Player) (si sj : Finset String) : Rat :=
  if pi'.name = pj.name then 0
  else if h : sj.Nonempty then
    max 0 ((sj.sum pi'.get_valuation - sj.inf' h pi'.get_valuation) -
      si.sum pi'.get_valuation)
  else 0

/-- Total EFX-envy of a finite-set allocation table. -/
def totalEFXEnvyFin (ps : List Player) (ma : List (String × Finset String)) : Rat :=
  (ps.map (fun pi' => (ps.map (fun pj =>
    efxPairFin pi' pj (alookupD ma pi'.name ∅) (alookupD ma pj.name ∅))).sum)).sum

/-- All finite-set allocation tables over the given pool for the given
players, a finite space. -/
def bundleSpace (U : Finset String) : List Player → Finset (List (String × Finset String))
  | [] => {[]}
  | p :: rest => (U.powerset ×ˢ bundleSpace U rest).image (fun q => (p.name, q.1) :: q.2)

/-- The finite set of total EFX-envy values attainable over the pool. -/
def envyValues (ps : List Player) (U : Finset String) : Finset Rat :=
  (bundleSpace U ps).image (totalEFXEnvyFin ps)

/-- Number of attainable total EFX-envy values strictly below the current
one: the strictly decreasing part of the termination measure. -/
def cardBelow (ps : List Player) (U : Finset String) (m : AMap) : Nat :=
  ((envyValues ps U).filter (fun e => e < totalEFXEnvy ps m)).card

/-- Fuel sufficient for phase2Loop to reach a terminal result: one more
than the measure of the initial state. -/
def phase2Bound (ps : List Player) (m : AMap) : Nat :=
  (ps.length * ps.length + 1) * cardBelow ps (gsUnion ps m) m +
    (envyRelationships ps m).length + 1

/-- _phase2_stepwise_redistribution: run the loop from the freshly
computed EFX-envy queue with an empty seen set. -/
def phase2 (ps : List Player) (m : AMap) : P2Result :=
  phase2Loop ps (phase2Bound ps m) m (envyRelationships ps m) [] 0

/-- Claim C3: in every Phase 2 step the candidate redistribution is applied
exactly when it strictly lowers total EFX-envy against the pre-step total;
with fewer than two combined goods, or no valid envier-EFX division, the
state is left entirely unchanged with the seen set retained; on acceptance
the seen set is reset to empty and the queue recomputed from the new
allocation; on rejection the allocation and seen set are retained; and
whenever the step changes the allocation at all, the total EFX-envy has
strictly decreased. -/
theorem claim_C3 (ps : List Player) (m : AMap) (en ed : String)
    (rest : List (String × String))
    (seen : List (List (String × String) × List (String × List String))) :
    ((bundleOf m en ++ bundleOf m ed).length < 2 →
      phase2Step ps m en ed rest seen = ⟨m, rest, seen, false⟩) ∧
    (¬ (bundleOf m en ++ bundleOf m ed).length < 2 →
      findEFXDivision (playerByName ps en) (bundleOf m en ++ bundleOf m ed) = none →
      phase2Step ps m en ed rest seen = ⟨m, rest, seen, false⟩) ∧
    (∀ bundle_a bundle_b,
      ¬ (bundleOf m en ++ bundleOf m ed).length < 2 →
      findEFXDivision (playerByName ps en) (bundleOf m en ++ bundleOf m ed) =
        some (bundle_a, bundle_b) →
      (let envied_obj := playerByName ps ed
       let envied_chosen :=
         if bundleValue envied_obj bundle_a ≥ bundleValue envied_obj bundle_b
         then bundle_a else bundle_b
       let envier_gets :=
         if bundleValue envied_obj bundle_a ≥ bundleValue envied_obj bundle_b
         then bundle_b else bundle_a
       let test := ps.map (fun p => (p.name,
         if p.name = en then envier_gets
         else if p.name = ed then envied_chosen
         else bundleOf m p.name))
       (totalEFXEnvy ps test < totalEFXEnvy ps m →
         phase2Step ps m en ed rest seen = ⟨test, envyRelationships ps test, [], true⟩) ∧
       (¬ totalEFXEnvy ps test < totalEFXEnvy ps m →
         phase2Step ps m en ed rest seen = ⟨m, rest, seen, true⟩))) ∧
    ((phase2Step ps m en ed rest seen).alloc ≠ m →
      totalEFXEnvy ps (phase2Step ps m en ed rest seen).alloc < totalEFXEnvy ps m) := by
  refine ⟨?_, ?_, ?_, ?_⟩
  · intro hlen
    rw [phase2Step, if_pos hlen]
  · intro hlen hdiv
    rw [phase2Step, if_neg hlen, hdiv]
  · intro bundle_a bundle_b hlen hdiv
    refine ⟨?_, ?_⟩
    · intro hacc
      rw [phase2Step, if_neg hlen, hdiv]
      simp only
      rw [if_pos hacc]
    · intro hrej
      rw [phase2Step, if_neg hlen, hdiv]
      simp only
      rw [if_neg hrej]
  · intro hchanged
    rw [phase2Step] at hchanged ⊢
    by_cases hlen : (bundleOf m en ++ bundleOf m ed).length < 2
    · rw [if_pos hlen] at hchanged
      exact absurd rfl hchanged
    · rw [if_neg hlen] at hchanged ⊢
      cases hdiv : findEFXDivision (playerByName ps en) (bundleOf m en ++ bundleOf m ed) with
      | none =>
        rw [hdiv] at hchanged
        exact absurd rfl hchanged
      | some d =>
        rw [hdiv] at hchanged
        obtain ⟨bundle_a, bundle_b⟩ := d
        simp only at hchanged ⊢
        by_cases hval : bundleValue (playerByName ps ed) bundle_a ≥
            bundleValue (playerByName ps ed) bundle_b
        · simp only [if_pos hval] at hchanged ⊢
          by_cases hacc : totalEFXEnvy ps (ps.map (fun p => (p.name,
              if p.name = en then bundle_b
              else if p.name = ed then bundle_a
              else bundleOf m p.name))) < totalEFXEnvy ps m
          · rw [if_pos hacc] at hchanged ⊢
            exact hacc
          · rw [if_neg hacc] at hchanged
            exact absurd rfl hchanged
        · simp only [if_neg hval] at hchanged ⊢
          by_cases hacc : totalEFXEnvy ps (ps.map (fun p => (p.name,
              if p.name = en then bundle_a
              else if p.name = ed then bundle_b
              else bundleOf m p.name))) < totalEFXEnvy ps m
          · rw [if_pos hacc] at hchanged ⊢
            exact hacc
          · rw [if_neg hacc] at hchanged
            exact absurd rfl hchanged

/-- Four players for a concrete Phase 2 step: the envier splits the goods
evenly, the envied player concentrates all value on the first good. -/
def c3Players : List Player :=
  [⟨"P1", [("g1", 1/2), ("g2", 1/2)]⟩, ⟨"P2", [("g1", 1), ("g2", 0)]⟩,
   ⟨"P3", []⟩, ⟨"P4", []⟩]

/-- Starting allocation for the concrete Phase 2 step: the envied player
holds both goods. -/
def c3Map : AMap := [("P1", []), ("P2", ["g1", "g2"]), ("P3", []), ("P4", [])]

theorem claim_C3_witness :
    phase2Step c3Players c3Map "P1" "P2" [] [] =
      ⟨[("P1", ["g2"]), ("P2", ["g1"]), ("P3", []), ("P4", [])], [], [], true⟩ := by
  have h := (claim_C3 c3Players c3Map "P1" "P2" [] []).2.2.1 ["g1"] ["g2"]
    (by norm_num +decide [c3Map, bundleOf, alookupD])
    (by norm_num +decide [c3Players, c3Map, findEFXDivision, splitDivision,
      isDivisionEFX, sortBy, stableInsert, bundleOf, alookupD, playerByName,
      bundleValue, Player.get_valuation])
  simp only at h
  rw [h.1 (by norm_num +decide [c3Players, c3Map, totalEFXEnvy, efxPair, asAlloc,
    Allocation.get_assignment, leastValuedItem, bundleOf, alookupD, playerByName,
    bundleValue, Player.get_valuation])]
  norm_num +decide [c3Players, c3Map, envyRelationships, efxPair, asAlloc,
    Allocation.get_assignment, leastValuedItem, bundleOf, alookupD,
    bundleValue, Player.get_valuation]

/-- The Allocation view of a phase dictionary answers assignment queries
with the bundle lookup. -/
theorem get_assignment_asAlloc (m : AMap) (n : String) :
    (asAlloc m).get_assignment n = bundleOf m n := rfl

theorem bundleValue_cons (p : Player) (y : String) (ys : List String) :
    bundleValue p (y :: ys) = p.get_valuation y + bundleValue p ys := by
  rw [bundleValue, List.map_cons, List.sum_cons, bundleValue]

/-- The option-state least-item scan started at some g is the plain
first-strict-min fold started at g. -/
theorem leastValuedItem_foldl (p : Player) (gs : List String) (g : String) :
    gs.foldl (fun acc x => match acc with
      | none => some x
      | some cur => if p.get_valuation x < p.get_valuation cur then some x else acc)
      (some g) =
      some (gs.foldl (fun b x =>
        if p.get_valuation x < p.get_valuation b then x else b) g) := by
  induction gs generalizing g with
  | nil => rfl
  | cons x xs ih =>
    simp only [List.foldl_cons]
    rw [show (if p.get_valuation x < p.get_valuation g then some x else some g) =
        some (if p.get_valuation x < p.get_valuation g then x else g) from
      (apply_ite some (p.get_valuation x < p.get_valuation g) x g).symm]
    exact ih _

/-- On a nonempty list the least-item scan returns a member whose value is
minimal. -/
theorem leastValuedItem_spec (p : Player) (l : List String) (h : l ≠ []) :
    ∃ least, leastValuedItem p l = some least ∧ least ∈ l ∧
      ∀ g ∈ l, p.get_valuation least ≤ p.get_valuation g := by
  match l with
  | [] => exact absurd rfl h
  | g :: gs =>
    obtain ⟨hmem, hle, hall⟩ := foldlMin_spec p.get_valuation gs g
    refine ⟨gs.foldl (fun b x =>
        if p.get_valuation x < p.get_valuation b then x else b) g, ?_, ?_, ?_⟩
    · rw [leastValuedItem, List.foldl_cons]
      exact leastValuedItem_foldl p gs g
    · rcases hmem with heq | hm
      · rw [heq]; exact List.mem_cons_self g gs
      · exact List.mem_cons_of_mem g hm
    · intro x hx
      rcases List.mem_cons.mp hx with rfl | hx'
      · exact hle
      · exact hall x hx'

/-- On a duplicate-free list the bundle value is the sum over the
underlying finite set. -/
theorem bundleValue_toFinset (p : Player) (l : List String) (h : l.Nodup) :
    bundleValue p l = l.toFinset.sum p.get_valuation :=
  (List.sum_toFinset _ h).symm

/-- Filtering one member out of a duplicate-free list subtracts exactly its
value from the bundle value. -/
theorem bundleValue_filter_ne (p : Player) (l : List String) (a : String)
    (h : l.Nodup) (ha : a ∈ l) :
    bundleValue p (l.filter (fun x => x ≠ a)) = bundleValue p l - p.get_valuation a := by
  induction l with
  | nil => cases ha
  | cons y ys ih =>
    rcases List.mem_cons.mp ha with rfl | ha'
    · have hnot : a ∉ ys := (List.nodup_cons.mp h).1
      have hfil : ys.filter (fun x => x ≠ a) = ys := by
        refine List.filter_eq_self.mpr ?_
        intro x hx
        exact decide_eq_true (fun hxy => hnot (hxy ▸ hx))
      rw [List.filter_cons, if_neg (by simp), hfil, bundleValue_cons]
      ring
    · have hyne : y ≠ a := by
        rintro rfl
        exact (List.nodup_cons.mp h).1 ha'
      rw [List.filter_cons, if_pos (by simpa using hyne), bundleValue_cons,
        bundleValue_cons, ih (List.nodup_cons.mp h).2 ha']
      ring

/-- Lookup in a name-keyed map built over a duplicate-free player list hits
the entry of the looked-up player. -/
theorem alookupD_map_name {β : Type} (f : Player → β) (d : β) (ps : List Player)
    (hnames : (ps.map Player.name).Nodup) (p : Player) (hp : p ∈ ps) :
    alookupD (ps.map (fun q => (q.name, f q))) p.name d = f p := by
  induction ps with
  | nil => cases hp
  | cons q rest ih =>
    rw [List.map_cons, alookupD_cons]
    by_cases hq : q.name = p.name
    · rw [if_pos hq]
      rcases List.mem_cons.mp hp with rfl | hp'
      · rfl
      · exact absurd (hq ▸ List.mem_map_of_mem Player.name hp')
          (List.nodup_cons.mp (List.map_cons Player.name q rest ▸ hnames)).1
    · rw [if_neg hq]
      rcases List.mem_cons.mp hp with rfl | hp'
      · exact absurd rfl hq
      · exact ih (List.nodup_cons.mp (List.map_cons Player.name q rest ▸ hnames)).2 hp'

/-- The EFX-envy matrix entry agrees with its finite-set form on
duplicate-free bundles. -/
theorem efxPair_fin (pi' pj : Player) (m : AMap)
    (hni : (bundleOf m pi'.name).Nodup) (hnj : (bundleOf m pj.name).Nodup) :
    efxPair pi' pj (asAlloc m) =
      efxPairFin pi' pj (bundleOf m pi'.name).toFinset (bundleOf m pj.name).toFinset := by
  rw [efxPair, efxPairFin]
  by_cases hname : pi'.name = pj.name
  · rw [if_pos hname, if_pos hname]
  · rw [if_neg hname, if_neg hname]
    simp only [get_assignment_asAlloc]
    by_cases hemp : bundleOf m pj.name = []
    · rw [if_pos hemp]
      have hnon : ¬ (bundleOf m pj.name).toFinset.Nonempty := by
        rw [hemp]
        exact Finset.not_nonempty_empty
      rw [dif_neg hnon]
    · rw [if_neg hemp]
      have hne : (bundleOf m pj.name).toFinset.Nonempty := by
        obtain ⟨x, hx⟩ := List.exists_mem_of_ne_nil _ hemp
        exact ⟨x, List.mem_toFinset.mpr hx⟩
      rw [dif_pos hne]
      obtain ⟨least, hlv, hmem, hmin⟩ := leastValuedItem_spec pi' _ hemp
      rw [hlv]
      simp only
      have h1 : bundleValue pi' ((bundleOf m pj.name).filter (fun x => x ≠ least)) =
          (bundleOf m pj.name).toFinset.sum pi'.get_valuation -
            pi'.get_valuation least := by
        rw [bundleValue_filter_ne pi' _ least hnj hmem, bundleValue_toFinset pi' _ hnj]
      have h2 : pi'.get_valuation least =
          (bundleOf m pj.name).toFinset.inf' hne pi'.get_valuation := by
        refine le_antisymm ?_ (Finset.inf'_le _ (List.mem_toFinset.mpr hmem))
        refine Finset.le_inf' hne _ ?_
        intro b hb
        exact hmin b (List.mem_toFinset.mp hb)
      rw [h1, h2, bundleValue_toFinset pi' _ hni]

/-- On distinct player names with duplicate-free bundles the finite-set
total EFX-envy of the snapshot table equals the list-based total. -/
theorem totalEFXEnvy_fin (ps : List Player) (m : AMap)
    (hnames : (ps.map Player.name).Nodup)
    (hnodup : ∀ p ∈ ps, (bundleOf m p.name).Nodup) :
    totalEFXEnvyFin ps (ps.map (fun p => (p.name, (bundleOf m p.name).toFinset))) =
      totalEFXEnvy ps m := by
  rw [totalEFXEnvyFin, totalEFXEnvy]
  refine congrArg List.sum (List.map_congr_left ?_)
  intro pi' hpi
  refine congrArg List.sum (List.map_congr_left ?_)
  intro pj hpj
  rw [alookupD_map_name _ _ ps hnames pi' hpi, alookupD_map_name _ _ ps hnames pj hpj]
  exact (efxPair_fin pi' pj m (hnodup pi' hpi) (hnodup pj hpj)).symm

/-- The snapshot of an allocation whose bundles live inside the pool is a
point of the finite bundle space. -/
theorem mem_bundleSpace (U : Finset String) (m : AMap) :
    ∀ ps : List Player, (∀ p ∈ ps, ∀ g ∈ bundleOf m p.name, g ∈ U) →
      (ps.map (fun p => (p.name, (bundleOf m p.name).toFinset))) ∈ bundleSpace U ps
  | [], _ => by
    rw [List.map_nil, bundleSpace]
    exact Finset.mem_singleton_self []
  | p :: rest, hsub => by
    rw [List.map_cons, bundleSpace]
    refine Finset.mem_image.mpr ⟨((bundleOf m p.name).toFinset,
      rest.map (fun q => (q.name, (bundleOf m q.name).toFinset))), ?_, rfl⟩
    refine Finset.mem_product.mpr ⟨?_, ?_⟩
    · exact Finset.mem_powerset.mpr
        (fun g hg => hsub p (List.mem_cons_self p rest) g (List.mem_toFinset.mp hg))
    · exact mem_bundleSpace U m rest (fun q hq => hsub q (List.mem_cons_of_mem p hq))

/-- The current total EFX-envy is one of the finitely many attainable
values over the pool. -/
theorem totalEFXEnvy_mem_envyValues (ps : List Player) (U : Finset String) (m : AMap)
    (hnames : (ps.map Player.name).Nodup)
    (hnodup : ∀ p ∈ ps, (bundleOf m p.name).Nodup)
    (hsub : ∀ p ∈ ps, ∀ g ∈ bundleOf m p.name, g ∈ U) :
    totalEFXEnvy ps m ∈ envyValues ps U := by
  rw [envyValues, ← totalEFXEnvy_fin ps m hnames hnodup]
  exact Finset.mem_image_of_mem _ (mem_bundleSpace U m ps hsub)

/-- A strict drop of the attainable total EFX-envy strictly shrinks the
set of attainable values below it. -/
theorem cardBelow_lt (ps : List Player) (U : Finset String) (m m2 : AMap)
    (hmem : totalEFXEnvy ps m2 ∈ envyValues ps U)
    (hlt : totalEFXEnvy ps m2 < totalEFXEnvy ps m) :
    cardBelow ps U m2 < cardBelow ps U m := by
  rw [cardBelow, cardBelow]
  have hsub : (envyValues ps U).filter (fun e => e < totalEFXEnvy ps m2) ⊆
      (envyValues ps U).filter (fun e => e < totalEFXEnvy ps m) := by
    intro e he
    rw [Finset.mem_filter] at he ⊢
    exact ⟨he.1, lt_trans he.2 hlt⟩
  refine Finset.card_lt_card ((Finset.ssubset_iff_of_subset hsub).mpr
    ⟨totalEFXEnvy ps m2, Finset.mem_filter.mpr ⟨hmem, hlt⟩, ?_⟩)
  intro hc
  exact lt_irrefl _ (Finset.mem_filter.mp hc).2

/-- A fold whose every step appends its good somewhere in a projected pair
of lists accumulates a permutation of the input. -/
theorem foldl_pair_perm {σ : Type} (proj : σ → List String) (step : σ → String → σ)
    (hstep : ∀ st g, (proj (step st g)).Perm (proj st ++ [g])) :
    ∀ (l : List String) (st : σ), (proj (l.foldl step st)).Perm (proj st ++ l)
  | [], st => by
    rw [List.foldl_nil, List.append_nil]
  | g :: gs, st => by
    rw [List.foldl_cons]
    refine List.Perm.trans (foldl_pair_perm proj step hstep gs (step st g)) ?_
    refine List.Perm.trans (List.Perm.append_right gs (hstep st g)) ?_
    rw [List.append_assoc]
    exact List.Perm.refl _

/-- The final rebalancing of the split division (moving one good over when
a side ended up empty) keeps the two sides a permutation of the goods. -/
theorem rebalance_perm (x y goods : List String) (hxy : (x ++ y).Perm goods)
    (A B : List String)
    (h : (if x = [] ∧ y ≠ [] then some (x ++ [y.getLastD ""], y.dropLast)
        else if y = [] ∧ x ≠ [] then some (x.dropLast, y ++ [x.getLastD ""])
        else some (x, y)) = some (A, B)) : (A ++ B).Perm goods := by
  by_cases h1 : x = [] ∧ y ≠ []
  · rw [if_pos h1] at h
    simp only [Option.some.injEq, Prod.mk.injEq] at h
    obtain ⟨hA, hB⟩ := h
    subst hA
    subst hB
    have hlast : y.getLastD "" = y.getLast h1.2 := by
      rw [List.getLastD_eq_getLast?, List.getLast?_eq_getLast y h1.2]
      rfl
    refine List.Perm.trans ?_ hxy
    rw [h1.1, List.nil_append, List.nil_append, hlast]
    exact List.Perm.trans List.perm_append_comm
      (by rw [List.dropLast_append_getLast h1.2])
  · rw [if_neg h1] at h
    by_cases h2 : y = [] ∧ x ≠ []
    · rw [if_pos h2] at h
      simp only [Option.some.injEq, Prod.mk.injEq] at h
      obtain ⟨hA, hB⟩ := h
      subst hA
      subst hB
      have hlast : x.getLastD "" = x.getLast h2.2 := by
        rw [List.getLastD_eq_getLast?, List.getLast?_eq_getLast x h2.2]
        rfl
      refine List.Perm.trans ?_ hxy
      rw [h2.1, List.nil_append, List.append_nil, hlast]
      rw [List.dropLast_append_getLast h2.2]
    · rw [if_neg h2] at h
      simp only [Option.some.injEq, Prod.mk.injEq] at h
      obtain ⟨hA, hB⟩ := h
      subst hA
      subst hB
      exact hxy

/-- The two bundles of the split division together are a permutation of the
goods handed to it. -/
theorem splitDivision_perm (player : Player) (goods A B : List String)
    (h : splitDivision player goods = some (A, B)) : (A ++ B).Perm goods := by
  rw [splitDivision] at h
  by_cases hlen : goods.length < 2
  · rw [if_pos hlen] at h
    cases h
  · rw [if_neg hlen] at h
    simp only at h
    refine rebalance_perm _ _ goods ?_ A B h
    refine List.Perm.trans
      (foldl_pair_perm (fun st : List String × List String × Nat => st.1 ++ st.2.1)
        _ ?_ _ ([], [], 1)) (sortBy_perm _ goods)
    intro st g
    obtain ⟨b1, b2, k⟩ := st
    simp only
    by_cases hk : k = 1
    · rw [if_pos hk]
      split
      · rw [List.append_assoc, List.append_assoc]
        exact List.Perm.append_left b1 List.perm_append_comm
      · rw [List.append_assoc, List.append_assoc]
        exact List.Perm.append_left b1 List.perm_append_comm
    · rw [if_neg hk]
      split
      · rw [List.append_assoc]
      · rw [List.append_assoc]

/-- Every member of a flattened duplicate-free family is duplicate-free. -/
theorem nodup_flatten_mem {α : Type} (L : List (List α)) (h : L.flatten.Nodup) :
    ∀ x ∈ L, x.Nodup := by
  induction L with
  | nil =>
    intro x hx
    cases hx
  | cons a L ih =>
    intro x hx
    rw [List.flatten_cons] at h
    rcases List.mem_cons.mp hx with rfl | hx'
    · exact h.of_append_left
    · exact ih h.of_append_right x hx'

/-- Flattening a mapped list splits, up to permutation, along any Boolean
predicate on the underlying elements. -/
theorem flatten_filter_perm {α β : Type} (l : List α) (f : α → List β) (pred : α → Bool) :
    ((l.map f).flatten).Perm
      (((l.filter pred).map f).flatten ++
        ((l.filter (fun x => ! pred x)).map f).flatten) := by
  induction l with
  | nil => exact List.Perm.refl _
  | cons a l ih =>
    rw [List.map_cons, List.flatten_cons, List.filter_cons, List.filter_cons]
    cases ha : pred a
    · simp only [Bool.not_false, if_false, if_true, Bool.false_eq_true, if_neg]
      rw [List.map_cons, List.flatten_cons]
      refine List.Perm.trans (List.Perm.append_left (f a) ih) ?_
      rw [← List.append_assoc]
      refine List.Perm.trans (List.Perm.append_right _ List.perm_append_comm) ?_
      rw [List.append_assoc]
    · simp only [Bool.not_true, if_true, Bool.false_eq_true, if_false]
      rw [List.map_cons, List.flatten_cons, List.append_assoc]
      exact List.Perm.append_left (f a) ih

/-- Over distinct names, filtering a player list for one member name keeps
exactly that member. -/
theorem filter_name_eq_singleton (ps : List Player)
    (hnames : (ps.map Player.name).Nodup) (p : Player) (hp : p ∈ ps) :
    ps.filter (fun q => q.name = p.name) = [p] := by
  induction ps with
  | nil => cases hp
  | cons q rest ih =>
    have hnm := List.nodup_cons.mp (List.map_cons Player.name q rest ▸ hnames)
    rw [List.filter_cons]
    by_cases hq : q.name = p.name
    · rw [if_pos (by simpa using hq)]
      have hpq : p = q := by
        rcases List.mem_cons.mp hp with rfl | hp'
        · rfl
        · exact absurd (hq ▸ List.mem_map_of_mem Player.name hp') hnm.1
      have hrest : rest.filter (fun r => r.name = p.name) = [] := by
        rw [List.filter_eq_nil_iff]
        intro r hr
        simp only [decide_eq_true_eq]
        intro hrname
        exact hnm.1 (hq ▸ hrname ▸ List.mem_map_of_mem Player.name hr)
      rw [hrest, hpq]
    · rw [if_neg (by simpa using hq)]
      rcases List.mem_cons.mp hp with rfl | hp'
      · exact absurd rfl hq
      · exact ih hnm.2 hp'

/-- Extracting one player out of a flattened mapped list: the flattening is
a permutation of that player's part followed by the rest. -/
theorem flatten_extract (ps : List Player) (h : Player → List String)
    (hnames : (ps.map Player.name).Nodup) (p : Player) (hp : p ∈ ps) :
    ((ps.map h).flatten).Perm
      (h p ++ ((ps.filter (fun q => ! decide (q.name = p.name))).map h).flatten) := by
  refine List.Perm.trans (flatten_filter_perm ps h (fun q => q.name = p.name)) ?_
  rw [filter_name_eq_singleton ps hnames p hp]
  simp only [List.map_cons, List.map_nil, List.flatten_cons, List.flatten_nil,
    List.append_nil]
  exact List.Perm.refl _

/-- Extracting two distinct-name players out of a flattened mapped list. -/
theorem flatten_extract_two (ps : List Player) (h : Player → List String)
    (hnames : (ps.map Player.name).Nodup) (p1 p2 : Player)
    (hp1 : p1 ∈ ps) (hp2 : p2 ∈ ps) (hne : p1.name ≠ p2.name) :
    ((ps.map h).flatten).Perm
      (h p1 ++ h p2 ++
        (((ps.filter (fun q => ! decide (q.name = p1.name))).filter
          (fun q => ! decide (q.name = p2.name))).map h).flatten) := by
  refine List.Perm.trans (flatten_extract ps h hnames p1 hp1) ?_
  rw [List.append_assoc]
  refine List.Perm.append_left (h p1) ?_
  refine flatten_extract (ps.filter (fun q => ! decide (q.name = p1.name))) h ?_ p2 ?_
  · exact List.Nodup.sublist (List.Sublist.map Player.name (List.filter_sublist ps))
      hnames
  · rw [List.mem_filter]
    refine ⟨hp2, ?_⟩
    simp only [Bool.not_eq_eq_eq_not, Bool.not_true, decide_eq_false_iff_not]
    intro hq
    exact hne hq.symm

/-- Replacing the bundles of two distinct players by any pair of lists that
jointly permute their old bundles permutes the flattened allocation. -/
theorem flatten_two_swap_perm (ps : List Player) (m : AMap)
    (hnames : (ps.map Player.name).Nodup)
    (pEn pEd : Player) (hp1 : pEn ∈ ps) (hp2 : pEd ∈ ps) (hne : pEn.name ≠ pEd.name)
    (x y : List String)
    (hxy : (x ++ y).Perm (bundleOf m pEn.name ++ bundleOf m pEd.name)) :
    ((ps.map (fun p => if p.name = pEn.name then x
        else if p.name = pEd.name then y else bundleOf m p.name)).flatten).Perm
      ((ps.map (fun p => bundleOf m p.name)).flatten) := by
  have h1 := flatten_extract_two ps (fun p => if p.name = pEn.name then x
    else if p.name = pEd.name then y else bundleOf m p.name) hnames pEn pEd hp1 hp2 hne
  have h2 := flatten_extract_two ps (fun p => bundleOf m p.name)
    hnames pEn pEd hp1 hp2 hne
  have hfe : (fun p : Player => if p.name = pEn.name then x
      else if p.name = pEd.name then y else bundleOf m p.name) pEn = x := by
    simp
  have hfd : (fun p : Player => if p.name = pEn.name then x
      else if p.name = pEd.name then y else bundleOf m p.name) pEd = y := by
    simp [hne.symm]
  have hrem : ((ps.filter (fun q => ! decide (q.name = pEn.name))).filter
        (fun q => ! decide (q.name = pEd.name))).map
        (fun p : Player => if p.name = pEn.name then x
          else if p.name = pEd.name then y else bundleOf m p.name) =
      ((ps.filter (fun q => ! decide (q.name = pEn.name))).filter
        (fun q => ! decide (q.name = pEd.name))).map
        (fun p => bundleOf m p.name) := by
    refine List.map_congr_left ?_
    intro q hq
    have hq2 := List.mem_filter.mp hq
    have hq1 := List.mem_filter.mp hq2.1
    have hqen : ¬ q.name = pEn.name := by
      have := hq1.2
      simpa using this
    have hqed : ¬ q.name = pEd.name := by
      have := hq2.2
      simpa using this
    simp [hqen, hqed]
  refine List.Perm.trans h1 (List.Perm.trans ?_ h2.symm)
  rw [hfe, hfd, hrem] at *
  exact List.Perm.append_right _ hxy

/-- Well-formedness of a Phase 2 allocation dictionary: no good is held
twice across the players and every held good lies in the pool. -/
def p2WF (ps : List Player) (U : Finset String) (m : AMap) : Prop :=
  ((ps.map (fun p => bundleOf m p.name)).flatten).Nodup ∧
  (∀ g ∈ (ps.map (fun p => bundleOf m p.name)).flatten, g ∈ U)

theorem p2WF.bundleNodup {ps : List Player} {U : Finset String} {m : AMap}
    (h : p2WF ps U m) : ∀ p ∈ ps, (bundleOf m p.name).Nodup :=
  fun p hp => nodup_flatten_mem _ h.1 _ (List.mem_map_of_mem _ hp)

theorem p2WF.bundleSub {ps : List Player} {U : Finset String} {m : AMap}
    (h : p2WF ps U m) : ∀ p ∈ ps, ∀ g ∈ bundleOf m p.name, g ∈ U :=
  fun p hp g hg => h.2 g (List.mem_flatten.mpr
    ⟨bundleOf m p.name, List.mem_map_of_mem _ hp, hg⟩)

/-- The two bundles of a successful envier division together permute the
combined goods. -/
theorem findEFXDivision_perm (p : Player) (gs A B : List String)
    (h : findEFXDivision p gs = some (A, B)) : (A ++ B).Perm gs := by
  rw [findEFXDivision] at h
  by_cases hlen : gs.length < 2
  · rw [if_pos hlen] at h
    cases h
  · rw [if_neg hlen] at h
    cases hsd : splitDivision p gs with
    | none =>
      rw [hsd] at h
      cases h
    | some d =>
      rw [hsd] at h
      simp only at h
      by_cases hefx : isDivisionEFX p d.1 d.2 = true
      · rw [if_pos hefx] at h
        simp only [Option.some.injEq] at h
        rw [h] at hsd
        exact splitDivision_perm p gs A B hsd
      · rw [if_neg hefx] at h
        cases h

/-- Every queue entry names two distinct players of the list. -/
theorem envyRelationships_spec (ps : List Player) (m : AMap) :
    ∀ pr ∈ envyRelationships ps m, pr.1 ≠ pr.2 ∧
      (∃ p1 ∈ ps, p1.name = pr.1) ∧ (∃ p2 ∈ ps, p2.name = pr.2) := by
  intro pr hpr
  rw [envyRelationships] at hpr
  obtain ⟨pi', hpi, hmem⟩ := List.mem_flatMap.mp hpr
  obtain ⟨pj, hpj, rfl⟩ := List.mem_map.mp hmem
  have hf := List.mem_filter.mp hpj
  have hcond := of_decide_eq_true hf.2
  exact ⟨hcond.1, ⟨pi', hpi, rfl⟩, ⟨pj, hf.1, rfl⟩⟩

theorem flatMap_length_le {α β : Type} (l : List α) (f : α → List β) (k : Nat)
    (h : ∀ a ∈ l, (f a).length ≤ k) : (l.flatMap f).length ≤ l.length * k := by
  induction l with
  | nil => simp
  | cons a t ih =>
    rw [List.flatMap_cons, List.length_append, List.length_cons, Nat.succ_mul]
    have h1 := h a (List.mem_cons_self a t)
    have h2 := ih (fun b hb => h b (List.mem_cons_of_mem a hb))
    omega

/-- The EFX-envy queue never holds more than (number of players) squared
entries. -/
theorem envyRelationships_length (ps : List Player) (m : AMap) :
    (envyRelationships ps m).length ≤ ps.length * ps.length := by
  rw [envyRelationships]
  refine flatMap_length_le ps _ ps.length ?_
  intro p hp
  rw [List.length_map]
  exact List.length_filter_le _ _

/-- One Phase 2 queue entry either leaves the state untouched or strictly
lowers total EFX-envy while preserving well-formedness, resetting the seen
set and recomputing the queue. -/
theorem phase2Step_cases (ps : List Player) (U : Finset String) (m : AMap)
    (en ed : String) (rest : List (String × String))
    (seen : List (List (String × String) × List (String × List String)))
    (hnames : (ps.map Player.name).Nodup)
    (pEn pEd : Player) (hp1 : pEn ∈ ps) (hp2 : pEd ∈ ps)
    (hen : pEn.name = en) (hed : pEd.name = ed) (hne : en ≠ ed)
    (hwf : p2WF ps U m) :
    (phase2Step ps m en ed rest seen = ⟨m, rest, seen, false⟩ ∨
     phase2Step ps m en ed rest seen = ⟨m, rest, seen, true⟩) ∨
    (totalEFXEnvy ps (phase2Step ps m en ed rest seen).alloc < totalEFXEnvy ps m ∧
     p2WF ps U (phase2Step ps m en ed rest seen).alloc ∧
     (phase2Step ps m en ed rest seen).queue =
       envyRelationships ps (phase2Step ps m en ed rest seen).alloc ∧
     (phase2Step ps m en ed rest seen).seen = []) := by
  subst hen
  subst hed
  rw [phase2Step]
  by_cases hlen : (bundleOf m pEn.name ++ bundleOf m pEd.name).length < 2
  · rw [if_pos hlen]
    exact Or.inl (Or.inl rfl)
  · rw [if_neg hlen]
    cases hdiv : findEFXDivision (playerByName ps pEn.name)
        (bundleOf m pEn.name ++ bundleOf m pEd.name) with
    | none => exact Or.inl (Or.inl rfl)
    | some d =>
      obtain ⟨A, B⟩ := d
      simp only
      have hAB : (A ++ B).Perm (bundleOf m pEn.name ++ bundleOf m pEd.name) :=
        findEFXDivision_perm _ _ A B hdiv
      by_cases hval : bundleValue (playerByName ps pEd.name) A ≥
          bundleValue (playerByName ps pEd.name) B
      · simp only [if_pos hval]
        by_cases hacc : totalEFXEnvy ps (ps.map (fun p => (p.name,
            if p.name = pEn.name then B
            else if p.name = pEd.name then A
            else bundleOf m p.name))) < totalEFXEnvy ps m
        · rw [if_pos hacc]
          refine Or.inr ⟨hacc, ?_, rfl, rfl⟩
          have hmapeq : ps.map (fun p => bundleOf (ps.map (fun q => (q.name,
              if q.name = pEn.name then B
              else if q.name = pEd.name then A
              else bundleOf m q.name))) p.name) =
              ps.map (fun p => if p.name = pEn.name then B
                else if p.name = pEd.name then A else bundleOf m p.name) :=
            List.map_congr_left (fun p hp => alookupD_map_name _ [] ps hnames p hp)
          have hperm := flatten_two_swap_perm ps m hnames pEn pEd hp1 hp2 hne B A
            (List.Perm.trans List.perm_append_comm hAB)
          refine ⟨?_, ?_⟩
          · rw [hmapeq]
            exact (List.Perm.nodup_iff hperm).mpr hwf.1
          · intro g hg
            rw [hmapeq] at hg
            exact hwf.2 g (hperm.mem_iff.mp hg)
        · rw [if_neg hacc]
          exact Or.inl (Or.inr rfl)
      · simp only [if_neg hval]
        by_cases hacc : totalEFXEnvy ps (ps.map (fun p => (p.name,
            if p.name = pEn.name then A
            else if p.name = pEd.name then B
            else bundleOf m p.name))) < totalEFXEnvy ps m
        · rw [if_pos hacc]
          refine Or.inr ⟨hacc, ?_, rfl, rfl⟩
          have hmapeq : ps.map (fun p => bundleOf (ps.map (fun q => (q.name,
              if q.name = pEn.name then A
              else if q.name = pEd.name then B
              else bundleOf m q.name))) p.name) =
              ps.map (fun p => if p.name = pEn.name then A
                else if p.name = pEd.name then B else bundleOf m p.name) :=
            List.map_congr_left (fun p hp => alookupD_map_name _ [] ps hnames p hp)
          have hperm := flatten_two_swap_perm ps m hnames pEn pEd hp1 hp2 hne A B hAB
          refine ⟨?_, ?_⟩
          · rw [hmapeq]
            exact (List.Perm.nodup_iff hperm).mpr hwf.1
          · intro g hg
            rw [hmapeq] at hg
            exact hwf.2 g (hperm.mem_iff.mp hg)
        · rw [if_neg hacc]
          exact Or.inl (Or.inr rfl)

/-- With fuel exceeding the measure (players-squared-plus-one times the
count of attainable strictly lower envy values, plus the queue length) the
Phase 2 loop never runs out of fuel. -/
theorem phase2Loop_no_outOfFuel (ps : List Player) (U : Finset String)
    (hnames : (ps.map Player.name).Nodup) :
    ∀ (fuel : Nat) (m : AMap) (queue : List (String × String))
      (seen : List (List (String × String) × List (String × List String)))
      (steps : Nat),
      p2WF ps U m →
      (∀ pr ∈ queue, pr.1 ≠ pr.2 ∧ (∃ p1 ∈ ps, p1.name = pr.1) ∧
        (∃ p2 ∈ ps, p2.name = pr.2)) →
      (ps.length * ps.length + 1) * cardBelow ps U m + queue.length < fuel →
      phase2Loop ps fuel m queue seen steps ≠ P2Result.outOfFuel := by
  intro fuel
  induction fuel with
  | zero =>
    intro m queue seen steps _ _ hlt
    omega
  | succ f ih =>
    intro m queue seen steps hwf hq hlt
    cases queue with
    | nil =>
      have hunfold : phase2Loop ps (f + 1) m [] seen steps =
          if totalEFXEnvy ps m = 0 then P2Result.success m steps
          else P2Result.exhausted := rfl
      rw [hunfold]
      by_cases hz : totalEFXEnvy ps m = 0
      · rw [if_pos hz]
        exact fun hc => P2Result.noConfusion hc
      · rw [if_neg hz]
        exact fun hc => P2Result.noConfusion hc
    | cons head tail =>
      obtain ⟨en, ed⟩ := head
      have hunfold : phase2Loop ps (f + 1) m ((en, ed) :: tail) seen steps =
          if fingerprint ((en, ed) :: tail) m ∈ seen then P2Result.cycleDetected
          else
            if (phase2Step ps m en ed tail
                  (fingerprint ((en, ed) :: tail) m :: seen)).attempted = true ∧
                totalEFXEnvy ps (phase2Step ps m en ed tail
                  (fingerprint ((en, ed) :: tail) m :: seen)).alloc = 0 then
              P2Result.success (phase2Step ps m en ed tail
                (fingerprint ((en, ed) :: tail) m :: seen)).alloc (steps + 1)
            else
              phase2Loop ps f
                (phase2Step ps m en ed tail
                  (fingerprint ((en, ed) :: tail) m :: seen)).alloc
                (phase2Step ps m en ed tail
                  (fingerprint ((en, ed) :: tail) m :: seen)).queue
                (phase2Step ps m en ed tail
                  (fingerprint ((en, ed) :: tail) m :: seen)).seen
                (steps + 1) := rfl
      rw [hunfold]
      by_cases hfp : fingerprint ((en, ed) :: tail) m ∈ seen
      · rw [if_pos hfp]
        exact fun hc => P2Result.noConfusion hc
      · rw [if_neg hfp]
        obtain ⟨hne, ⟨pEn, hpe, hpen⟩, ⟨pEd, hpd, hped⟩⟩ :=
          hq (en, ed) (List.mem_cons_self _ _)
        have hcases := phase2Step_cases ps U m en ed tail
          (fingerprint ((en, ed) :: tail) m :: seen) hnames pEn pEd hpe hpd
          hpen hped hne hwf
        by_cases hstop : (phase2Step ps m en ed tail
            (fingerprint ((en, ed) :: tail) m :: seen)).attempted = true ∧
            totalEFXEnvy ps (phase2Step ps m en ed tail
              (fingerprint ((en, ed) :: tail) m :: seen)).alloc = 0
        · rw [if_pos hstop]
          exact fun hc => P2Result.noConfusion hc
        · rw [if_neg hstop]
          rcases hcases with (heq | heq) | ⟨hdec, hwf2, hq2, _⟩
          · rw [heq]
            refine ih m tail (fingerprint ((en, ed) :: tail) m :: seen) (steps + 1)
              hwf (fun pr hpr => hq pr (List.mem_cons_of_mem _ hpr)) ?_
            exact Nat.lt_of_succ_lt_succ hlt
          · rw [heq]
            refine ih m tail (fingerprint ((en, ed) :: tail) m :: seen) (steps + 1)
              hwf (fun pr hpr => hq pr (List.mem_cons_of_mem _ hpr)) ?_
            exact Nat.lt_of_succ_lt_succ hlt
          · rw [hq2]
            refine ih _ _ _ (steps + 1) hwf2
              (fun pr hpr => envyRelationships_spec ps _ pr hpr) ?_
            have hcb : cardBelow ps U (phase2Step ps m en ed tail
                (fingerprint ((en, ed) :: tail) m :: seen)).alloc <
                cardBelow ps U m :=
              cardBelow_lt ps U m _
                (totalEFXEnvy_mem_envyValues ps U _ hnames hwf2.bundleNodup
                  hwf2.bundleSub) hdec
            have h1 : (ps.length * ps.length + 1) *
                cardBelow ps U (phase2Step ps m en ed tail
                  (fingerprint ((en, ed) :: tail) m :: seen)).alloc +
                (ps.length * ps.length + 1) ≤
                (ps.length * ps.length + 1) * cardBelow ps U m := by
              have hm := Nat.mul_le_mul_left (ps.length * ps.length + 1)
                (Nat.succ_le_of_lt hcb)
              rw [Nat.mul_succ] at hm
              exact hm
            have h2 : (envyRelationships ps (phase2Step ps m en ed tail
                (fingerprint ((en, ed) :: tail) m :: seen)).alloc).length <
                ps.length * ps.length + 1 :=
              Nat.lt_succ_of_le (envyRelationships_length ps _)
            calc (ps.length * ps.length + 1) *
                cardBelow ps U (phase2Step ps m en ed tail
                  (fingerprint ((en, ed) :: tail) m :: seen)).alloc +
                (envyRelationships ps (phase2Step ps m en ed tail
                  (fingerprint ((en, ed) :: tail) m :: seen)).alloc).length
                < (ps.length * ps.length + 1) *
                  cardBelow ps U (phase2Step ps m en ed tail
                    (fingerprint ((en, ed) :: tail) m :: seen)).alloc +
                  (ps.length * ps.length + 1) := Nat.add_lt_add_left h2 _
              _ ≤ (ps.length * ps.length + 1) * cardBelow ps U m := h1
              _ ≤ (ps.length * ps.length + 1) * cardBelow ps U m + tail.length :=
                Nat.le_add_right _ _
              _ < f := Nat.lt_of_succ_lt_succ hlt

/-- A success result of the Phase 2 loop carries an allocation of zero
total EFX-envy, and its step count stays within the fuel spent. -/
theorem phase2Loop_success_spec (ps : List Player) :
    ∀ (fuel : Nat) (m : AMap) (queue : List (String × String))
      (seen : List (List (String × String) × List (String × List String)))
      (steps : Nat) (a : AMap) (s : Nat),
      phase2Loop ps fuel m queue seen steps = P2Result.success a s →
      totalEFXEnvy ps a = 0 ∧ s ≤ steps + fuel := by
  intro fuel
  induction fuel with
  | zero =>
    intro m queue seen steps a s h
    rw [show phase2Loop ps 0 m queue seen steps = P2Result.outOfFuel from rfl] at h
    cases h
  | succ f ih =>
    intro m queue seen steps a s h
    cases queue with
    | nil =>
      rw [show phase2Loop ps (f + 1) m [] seen steps =
          (if totalEFXEnvy ps m = 0 then P2Result.success m steps
           else P2Result.exhausted) from rfl] at h
      by_cases hz : totalEFXEnvy ps m = 0
      · rw [if_pos hz] at h
        cases h
        exact ⟨hz, Nat.le_add_right _ _⟩
      · rw [if_neg hz] at h
        cases h
    | cons head tail =>
      obtain ⟨en, ed⟩ := head
      rw [show phase2Loop ps (f + 1) m ((en, ed) :: tail) seen steps =
          (if fingerprint ((en, ed) :: tail) m ∈ seen then P2Result.cycleDetected
          else
            if (phase2Step ps m en ed tail
                  (fingerprint ((en, ed) :: tail) m :: seen)).attempted = true ∧
                totalEFXEnvy ps (phase2Step ps m en ed tail
                  (fingerprint ((en, ed) :: tail) m :: seen)).alloc = 0 then
              P2Result.success (phase2Step ps m en ed tail
                (fingerprint ((en, ed) :: tail) m :: seen)).alloc (steps + 1)
            else
              phase2Loop ps f
                (phase2Step ps m en ed tail
                  (fingerprint ((en, ed) :: tail) m :: seen)).alloc
                (phase2Step ps m en ed tail
                  (fingerprint ((en, ed) :: tail) m :: seen)).queue
                (phase2Step ps m en ed tail
                  (fingerprint ((en, ed) :: tail) m :: seen)).seen
                (steps + 1)) from rfl] at h
      by_cases hfp : fingerprint ((en, ed) :: tail) m ∈ seen
      · rw [if_pos hfp] at h
        cases h
      · rw [if_neg hfp] at h
        by_cases hstop : (phase2Step ps m en ed tail
            (fingerprint ((en, ed) :: tail) m :: seen)).attempted = true ∧
            totalEFXEnvy ps (phase2Step ps m en ed tail
              (fingerprint ((en, ed) :: tail) m :: seen)).alloc = 0
        · rw [if_pos hstop] at h
          cases h
          exact ⟨hstop.2, by omega⟩
        · rw [if_neg hstop] at h
          obtain ⟨hz, hs⟩ := ih _ _ _ _ _ _ h
          exact ⟨hz, by omega⟩

/-- Claim C2: on well-formed inputs (distinct player names, no good held
twice) Phase 2 never runs out of the fuel given by the finite measure
phase2Bound — it terminates — and it either returns an allocation of
exactly zero total EFX-envy within phase2Bound steps, or raises
CycleDetected (a repeated state fingerprint) or Exhausted (queue emptied
with nonzero EFX-envy). -/
theorem claim_C2 (ps : List Player) (m : AMap)
    (hnames : (ps.map Player.name).Nodup)
    (hflat : ((ps.map (fun p => bundleOf m p.name)).flatten).Nodup) :
    phase2 ps m ≠ P2Result.outOfFuel ∧
    ((∃ a s, phase2 ps m = P2Result.success a s ∧ totalEFXEnvy ps a = 0 ∧
        s ≤ phase2Bound ps m) ∨
      phase2 ps m = P2Result.cycleDetected ∨
      phase2 ps m = P2Result.exhausted) := by
  have hwf : p2WF ps (gsUnion ps m) m :=
    ⟨hflat, fun g hg => List.mem_toFinset.mpr hg⟩
  have hnof : phase2Loop ps (phase2Bound ps m) m (envyRelationships ps m) [] 0 ≠
      P2Result.outOfFuel := by
    refine phase2Loop_no_outOfFuel ps (gsUnion ps m) hnames (phase2Bound ps m) m
      (envyRelationships ps m) [] 0 hwf
      (fun pr hpr => envyRelationships_spec ps m pr hpr) ?_
    rw [phase2Bound]
    exact Nat.lt_succ_self _
  refine ⟨hnof, ?_⟩
  cases hres : phase2 ps m with
  | success a s =>
    left
    obtain ⟨hz, hs⟩ := phase2Loop_success_spec ps (phase2Bound ps m) m
      (envyRelationships ps m) [] 0 a s hres
    exact ⟨a, s, rfl, hz, by omega⟩
  | cycleDetected => exact Or.inr (Or.inl rfl)
  | exhausted => exact Or.inr (Or.inr rfl)
  | outOfFuel => exact absurd hres hnof

theorem claim_C2_witness :
    (plainPlayers.map Player.name).Nodup ∧
    ((plainPlayers.map (fun p => bundleOf emptyAMap p.name)).flatten).Nodup ∧
    (phase2 plainPlayers emptyAMap ≠ P2Result.outOfFuel ∧
      ((∃ a s, phase2 plainPlayers emptyAMap = P2Result.success a s ∧
          totalEFXEnvy plainPlayers a = 0 ∧ s ≤ phase2Bound plainPlayers emptyAMap) ∨
        phase2 plainPlayers emptyAMap = P2Result.cycleDetected ∨
        phase2 plainPlayers emptyAMap = P2Result.exhausted)) :=
  ⟨by norm_num +decide [plainPlayers],
   by norm_num +decide [plainPlayers, emptyAMap, bundleOf, alookupD],
   claim_C2 plainPlayers emptyAMap (by norm_num +decide [plainPlayers])
     (by norm_num +decide [plainPlayers, emptyAMap, bundleOf, alookupD])⟩
